import Mathlib

/-!
# mv_data: the hole-aware transfer loop of `main` (src/main.c)

`main` moves a byte range from an input file to an output file.  After the
files are opened and `fstat` has succeeded it

* computes `len = st_size - arguments.input.offset` and clamps `arguments.len`
  (lines 168-169),
* punches a hole into the output file (line 171),
* loops: `lseek(SEEK_DATA)` on the input, `read`, `lseek(SEEK_SET)` on the
  output, `write`, `fallocate(PUNCH_HOLE)` on the input (lines 177-220).

The embedding is a small-step machine: one state per program point, one system
call per step.  `size_t` values are naturals reduced modulo `2 ^ 64`; `off_t`
arguments are the same bit patterns read as signed 64-bit numbers, so a value
above `OFF_MAX` stands for a negative offset.

The system calls are not part of the repository.  They are modelled on sparse
files after the Linux manual pages (`lseek(2)`, `fallocate(2)`, `read(2)`,
`write(2)`): a file is a size, a map from positions to allocated bytes and the
block size of its file system; a hole reads as zero; `SEEK_DATA` finds the
first allocated byte at or after the offset and reports `ENXIO` when there is
none; `fallocate` rejects a negative offset and a length `<= 0` with `EINVAL`
and releases whole blocks only: the bytes of the range in a block that lies
partly outside it are zeroed and stay allocated.  An oracle, indexed by the
number of system calls made so far, lets every call fail with an error of the
environment or transfer fewer bytes than requested.

The input and the output descriptor refer to two different files.  The machine
starts at line 168, after both `open` calls and `fstat` have succeeded; `perror`
and `close` have no effect on the state.
-/

namespace MvData

/-! ## Machine integers -/

/-- Line 12: `#define BUF_SIZE (1024 * 1024)`. -/
def BUF_SIZE : Nat := 1024 * 1024

/-- Number of values of `size_t` (64 bit). -/
def SIZE_MOD : Nat := 18446744073709551616

/-- The constant `SIZE_MAX`, also the bit pattern of `-1ul`. -/
def SIZE_MAX : Nat := 18446744073709551615

/-- Largest value of `off_t`; a `size_t` above it converts to a negative `off_t`. -/
def OFF_MAX : Nat := 9223372036854775807

/-- Addition of `size_t` values. -/
def wadd (a b : Nat) : Nat := (a + b) % SIZE_MOD

/-- Subtraction of `size_t` values. -/
def wsub (a b : Nat) : Nat := (a + (SIZE_MOD - b % SIZE_MOD)) % SIZE_MOD

/-! ## Error numbers -/

/-- The `errno` values that occur in the model. -/
inductive Errno
  | EPERM | EIO | ENXIO | EBADF | EINVAL | EFBIG | ENOSPC | EOPNOTSUPP
  deriving DecidableEq, Repr

/-- Linux numbering of the error constants. -/
def Errno.toNat : Errno → Nat
  | .EPERM => 1
  | Errno.EIO => 5
  | Errno.ENXIO => 6
  | .EBADF => 9
  | .EINVAL => 22
  | .EFBIG => 27
  | .ENOSPC => 28
  | .EOPNOTSUPP => 95

/-- Errors of the environment (device, permissions, quota, missing file system
support) that any system call may report.  `ENXIO` is not among them: it is
reported by `lseek(SEEK_DATA)` exactly when no data lies at or after the offset. -/
inductive Fault
  | EPERM | EIO | EBADF | EINVAL | ENOSPC | EOPNOTSUPP
  deriving DecidableEq, Repr

/-- The error number of an environment fault. -/
def Fault.errno : Fault → Errno
  | .EPERM => .EPERM
  | Fault.EIO => Errno.EIO
  | .EBADF => .EBADF
  | .EINVAL => .EINVAL
  | .ENOSPC => .ENOSPC
  | .EOPNOTSUPP => .EOPNOTSUPP

/-- What the environment decides about one system call: it proceeds normally,
it transfers at most `k` bytes (short `read` or `write`; ignored by the other
calls), or it fails. -/
inductive Outcome
  | normal
  | short (k : Nat)
  | fail (e : Fault)
  deriving DecidableEq, Repr

/-! ## Sparse files -/

/-- A sparse file: its size, per position the allocated byte (`none` is a hole),
and the block size of the file system that holds it (at least 1; storage is
released in whole blocks). -/
structure File where
  size : Nat
  cell : Nat → Option Nat
  block : Nat

/-- The byte a read returns at position `q`: a hole reads as zero. -/
def File.byte (f : File) (q : Nat) : Nat := (f.cell q).getD 0

/-- Result of reading one byte at position `q`: `none` at or past the end of file. -/
def File.peek (f : File) (q : Nat) : Option Nat :=
  if q < f.size then some (f.byte q) else none

/-- The block of position `q` lies wholly inside `[offset, offset + len)`. -/
def File.whole_block (f : File) (offset len q : Nat) : Prop :=
  offset ≤ q / f.block * f.block ∧ (q / f.block + 1) * f.block ≤ offset + len

instance (f : File) (offset len q : Nat) : Decidable (f.whole_block offset len q) := by
  unfold File.whole_block
  infer_instance

/-- Deallocation of `[offset, offset + len)` keeping the file size
(`FALLOC_FL_PUNCH_HOLE|FALLOC_FL_KEEP_SIZE`), as `fallocate(2)` describes it:
the blocks that lie wholly inside the range are released, the bytes of the range
in a block that lies only partly inside it are set to zero and stay allocated.
With blocks of one byte every byte of the range is released. -/
def File.punch (f : File) (offset len : Nat) : File :=
  { size := f.size
    cell := fun q =>
      if offset ≤ q ∧ q < offset + len then
        if f.whole_block offset len q then none else (f.cell q).map (fun _ => 0)
      else f.cell q
    block := f.block }

/-- Storing the first `n` bytes of `buf` at position `pos`, growing the file when
the written range ends past its end. -/
def File.store (f : File) (pos n : Nat) (buf : Nat → Nat) : File :=
  { size := if n = 0 then f.size else max f.size (pos + n)
    cell := fun q => if pos ≤ q ∧ q < pos + n then some (buf (q - pos)) else f.cell q
    block := f.block }

/-- A file without any byte, as `open` with `O_CREAT` creates it. -/
def File.empty : File := { size := 0, cell := fun _ => none, block := 1 }

/-- Scan of `n` positions from `pos` for the first allocated byte. -/
def findData (f : File) : Nat → Nat → Option Nat
  | _, 0 => none
  | pos, n + 1 => if (f.cell pos).isSome then some pos else findData f (pos + 1) n

/-! ## System calls -/

/-- Model of `fallocate(fd, FALLOC_FL_PUNCH_HOLE|FALLOC_FL_KEEP_SIZE, offset, len)`;
`offset` and `len` are the `size_t` values the caller passes for the `off_t`
parameters. -/
def fallocate (f : File) (offset len : Nat) : Outcome → Except Errno File
  | .fail e => .error e.errno
  | _ =>
    if OFF_MAX < offset ∨ OFF_MAX < len ∨ len = 0 then .error .EINVAL
    else if OFF_MAX < offset + len then .error .EFBIG
    else .ok (f.punch offset len)

/-- Model of `lseek(fd, offset, SEEK_DATA)`: the position of the first allocated
byte at or after `offset`, `ENXIO` when there is none before the end of file. -/
def lseek_data (f : File) (offset : Nat) : Outcome → Except Errno Nat
  | .fail e => .error e.errno
  | _ =>
    if OFF_MAX < offset ∨ f.size ≤ offset then .error Errno.ENXIO
    else match findData f offset (f.size - offset) with
      | some p => .ok p
      | none => .error Errno.ENXIO

/-- Model of `lseek(fd, offset, SEEK_SET)`. -/
def lseek_set (offset : Nat) : Outcome → Except Errno Nat
  | .fail e => .error e.errno
  | _ => if OFF_MAX < offset then .error .EINVAL else .ok offset

/-- Model of `read(fd, buf, count)` at file position `pos`: the number of bytes
transferred. -/
def read (f : File) (pos count : Nat) : Outcome → Except Errno Nat
  | .fail e => .error e.errno
  | .short k => .ok (min k (min count (f.size - pos)))
  | .normal => .ok (min count (f.size - pos))

/-- Model of `write(fd, buf, count)`: the number of bytes transferred. -/
def write (count : Nat) : Outcome → Except Errno Nat
  | .fail e => .error e.errno
  | .short k => .ok (min k count)
  | .normal => .ok count

/-! ## Program state -/

/-- Lines 14-19, `struct io_def`; the path and the descriptor are kept in `State`. -/
structure io_def where
  offset : Nat
  deriving DecidableEq, Repr

/-- Lines 21-26, `struct arguments`. -/
structure arguments where
  input : io_def
  output : io_def
  len : Nat
  deriving DecidableEq, Repr

/-- Lines 117, 122, 124 and `parse_arg`: every field is zero, `len` is `SIZE_MAX`,
then each option given on the command line overwrites its field.  An option
value is the `size_t` that `parse_arg` stores, that is the result of `strtol`
after its conversion to `size_t`. -/
def argp_parse (input_offset output_offset length : Option Nat) : arguments :=
  { input := { offset := input_offset.getD 0 }
    output := { offset := output_offset.getD 0 }
    len := length.getD SIZE_MAX }

/-- The system calls `main` makes from line 168 on. -/
inductive Prim
  | fallocate_output | lseek_data | read | lseek_output | write | fallocate_input
  deriving DecidableEq, Repr

/-- Return value of a system call. -/
inductive Ret
  | ok (v : Nat)
  | err (e : Errno)
  deriving DecidableEq, Repr

/-- One system call as it happened: its offset and length arguments and its
return value. -/
structure Event where
  prim : Prim
  offset : Nat
  count : Nat
  ret : Ret
  deriving DecidableEq, Repr

/-- A call that failed with anything but the end-of-data signal of `SEEK_DATA`. -/
def Event.fatal (e : Event) : Bool :=
  match e.ret with
  | .ok _ => false
  | .err x => !(e.prim == Prim.lseek_data && x == Errno.ENXIO)

/-- Program points of `main` from line 168 on. -/
inductive PC
  | start      -- lines 168-177
  | loop       -- lines 178-191
  | do_read    -- lines 192-197
  | seek_out   -- lines 199-203
  | do_write   -- lines 205-210
  | reclaim    -- lines 212-219
  | exited (status : Nat)
  deriving DecidableEq, Repr

/-- The variables of `main`, the two open files with their file positions, and
the system calls made so far (newest first). -/
structure State where
  pc : PC
  arguments : arguments
  offset : Nat
  len : Nat
  remaining_len : Nat
  buf : Nat → Nat
  in_file : File
  in_pos : Nat
  out_file : File
  out_pos : Nat
  trace : List Event

/-- State at line 168: `offset = 0`, `len = 0`, both descriptors at position 0. -/
def State.init (a : MvData.arguments) (src dst : File) (buf : Nat → Nat) : State :=
  { pc := .start, arguments := a, offset := 0, len := 0, remaining_len := 0, buf := buf
    in_file := src, in_pos := 0, out_file := dst, out_pos := 0, trace := [] }

/-- Return value of `main`, once it has returned. -/
def State.status (s : State) : Option Nat :=
  match s.pc with
  | .exited st => some st
  | _ => none

/-! ## The program -/

/-- Lines 168-177. -/
def step_start (o : Outcome) (s : State) : State :=
  let len := wsub s.in_file.size s.arguments.input.offset
  let a : arguments :=
    { s.arguments with len := if len < s.arguments.len then len else s.arguments.len }
  match fallocate s.out_file a.output.offset len o with
  | .error e =>
    { s with pc := .exited e.toNat, arguments := a, len := len
             trace := ⟨.fallocate_output, a.output.offset, len, .err e⟩ :: s.trace }
  | .ok f =>
    { s with pc := .loop, arguments := a, len := len, out_file := f, remaining_len := a.len
             trace := ⟨.fallocate_output, a.output.offset, len, .ok 0⟩ :: s.trace }

/-- Lines 178-191 (and 222-225 when the loop ends). -/
def step_loop (o : Outcome) (s : State) : State :=
  if s.remaining_len = 0 then { s with pc := .exited 0 }
  else
    let pos := wadd s.arguments.input.offset s.offset
    match lseek_data s.in_file pos o with
    | .error e =>
      { s with pc := .exited (if e = Errno.ENXIO then 0 else e.toNat), offset := SIZE_MAX
               trace := ⟨.lseek_data, pos, 0, .err e⟩ :: s.trace }
    | .ok p =>
      let offset := wsub p s.arguments.input.offset
      let remaining_len := wsub s.arguments.len offset
      { s with pc := .do_read, offset := offset, remaining_len := remaining_len
               len := if remaining_len < BUF_SIZE then remaining_len else BUF_SIZE
               in_pos := p
               trace := ⟨.lseek_data, pos, 0, .ok p⟩ :: s.trace }

/-- Lines 192-197. -/
def step_read (o : Outcome) (s : State) : State :=
  match read s.in_file s.in_pos s.len o with
  | .error e =>
    { s with pc := .exited e.toNat, len := SIZE_MAX
             trace := ⟨.read, s.in_pos, s.len, .err e⟩ :: s.trace }
  | .ok k =>
    { s with pc := .seek_out, len := k, in_pos := s.in_pos + k
             buf := fun i => if i < k then s.in_file.byte (s.in_pos + i) else s.buf i
             trace := ⟨.read, s.in_pos, s.len, .ok k⟩ :: s.trace }

/-- Lines 199-203. -/
def step_seek_out (o : Outcome) (s : State) : State :=
  let pos := wadd s.arguments.output.offset s.offset
  match lseek_set pos o with
  | .error e =>
    { s with pc := .exited e.toNat
             trace := ⟨.lseek_output, pos, 0, .err e⟩ :: s.trace }
  | .ok p =>
    { s with pc := .do_write, out_pos := p
             trace := ⟨.lseek_output, pos, 0, .ok p⟩ :: s.trace }

/-- Lines 205-210. -/
def step_write (o : Outcome) (s : State) : State :=
  match write s.len o with
  | .error e =>
    { s with pc := .exited e.toNat, len := SIZE_MAX
             trace := ⟨.write, s.out_pos, s.len, .err e⟩ :: s.trace }
  | .ok m =>
    { s with pc := .reclaim, len := m, out_pos := s.out_pos + m
             out_file := s.out_file.store s.out_pos m s.buf
             trace := ⟨.write, s.out_pos, s.len, .ok m⟩ :: s.trace }

/-- Lines 212-219. -/
def step_reclaim (o : Outcome) (s : State) : State :=
  let pos := wadd s.arguments.input.offset s.offset
  match fallocate s.in_file pos s.len o with
  | .error e =>
    { s with pc := .exited e.toNat
             trace := ⟨.fallocate_input, pos, s.len, .err e⟩ :: s.trace }
  | .ok f =>
    { s with pc := .loop, in_file := f
             offset := wadd s.offset s.len, remaining_len := wsub s.remaining_len s.len
             trace := ⟨.fallocate_input, pos, s.len, .ok 0⟩ :: s.trace }

/-- One step of `main`; the oracle is asked about the system call that comes
next, numbered by the calls made so far.  A state that has returned stays. -/
def step (oracle : Nat → Outcome) (s : State) : State :=
  match s.pc with
  | .start => step_start (oracle s.trace.length) s
  | .loop => step_loop (oracle s.trace.length) s
  | .do_read => step_read (oracle s.trace.length) s
  | .seek_out => step_seek_out (oracle s.trace.length) s
  | .do_write => step_write (oracle s.trace.length) s
  | .reclaim => step_reclaim (oracle s.trace.length) s
  | .exited _ => s

/-- The state after `n` steps. -/
def run (oracle : Nat → Outcome) : Nat → State → State
  | 0, s => s
  | n + 1, s => run oracle n (step oracle s)

/-- An environment in which no call fails and no transfer is short. -/
def calm : Nat → Outcome := fun _ => .normal

/-! ## Invariants of a run -/

/-- The inputs are values of their C types: the three numbers are `size_t`, the
file size is a non-negative `off_t`. -/
def InRange (a : arguments) (src : File) : Prop :=
  a.input.offset < SIZE_MOD ∧ a.output.offset < SIZE_MOD ∧ a.len < SIZE_MOD ∧ src.size ≤ OFF_MAX

instance (a : arguments) (src : File) : Decidable (InRange a src) := by
  unfold InRange
  infer_instance

/-- Value of `len` after line 168. -/
def available (a : arguments) (src : File) : Nat := wsub src.size a.input.offset

/-- Value of `arguments.len` after line 169. -/
def effective_len (a : arguments) (src : File) : Nat :=
  if available a src < a.len then available a src else a.len

/-- The input file is as at the start from position `F` on. -/
def Unchanged (src : File) (s : State) (F : Nat) : Prop :=
  ∀ q, F ≤ q → s.in_file.cell q = src.cell q

/-- The input file keeps its block size, and each of its cells is as at the
start, or a hole, or (on blocks of more than one byte) an allocated zero. -/
def Mono (src : File) (s : State) : Prop :=
  s.in_file.block = src.block ∧
  ∀ q, s.in_file.cell q = src.cell q ∨ s.in_file.cell q = none ∨
    (s.in_file.cell q = some 0 ∧ src.block ≠ 1)

/-- Facts that hold from the loop entry on, at every program point inside the loop. -/
def Common (a : arguments) (src : File) (s : State) : Prop :=
  s.arguments = { a with len := effective_len a src } ∧
  s.in_file.size = src.size ∧
  Mono src s ∧
  a.output.offset + available a src ≤ OFF_MAX ∧
  s.remaining_len = wsub (effective_len a src) s.offset

/-- Facts about a chunk that starts at `arguments.input.offset + offset`. -/
def AtChunk (a : arguments) (src : File) (s : State) : Prop :=
  a.input.offset + s.offset < src.size ∧
  (s.in_file.cell (a.input.offset + s.offset)).isSome = true ∧
  Unchanged src s (a.input.offset + s.offset) ∧
  s.len ≤ BUF_SIZE

/-- The invariant of the positions and of the input file, per program point. -/
def Core (a : arguments) (src dst : File) (s : State) : Prop :=
  match s.pc with
  | .start =>
    s.arguments = a ∧ s.in_file = src ∧ s.out_file = dst ∧ s.offset = 0 ∧ s.trace = []
  | .loop =>
    Common a src s ∧ (s.offset = 0 ∨ a.input.offset + s.offset ≤ src.size) ∧
    Unchanged src s (a.input.offset + s.offset)
  | .do_read =>
    Common a src s ∧ AtChunk a src s ∧ s.in_pos = a.input.offset + s.offset
  | .seek_out =>
    Common a src s ∧ AtChunk a src s ∧ a.input.offset + s.offset + s.len ≤ src.size ∧
    (∀ i, i < s.len → s.buf i = src.byte (a.input.offset + s.offset + i))
  | .do_write =>
    Common a src s ∧ AtChunk a src s ∧ a.input.offset + s.offset + s.len ≤ src.size ∧
    (∀ i, i < s.len → s.buf i = src.byte (a.input.offset + s.offset + i)) ∧
    s.out_pos = a.output.offset + s.offset
  | .reclaim =>
    Common a src s ∧ AtChunk a src s ∧ a.input.offset + s.offset + s.len ≤ src.size
  | .exited _ => s.in_file.size = src.size ∧ Mono src s

/-- The number of steps a run can still take is bounded by this measure: six
steps per byte between the absolute input position and the end of the input. -/
def measure (s : State) : Nat :=
  match s.pc with
  | .start => 6 * s.in_file.size + 2
  | .loop => 6 * (s.in_file.size - (s.arguments.input.offset + s.offset)) + 1
  | .do_read => 6 * (s.in_file.size - (s.arguments.input.offset + s.offset))
  | .seek_out => 6 * (s.in_file.size - (s.arguments.input.offset + s.offset)) - 1
  | .do_write => 6 * (s.in_file.size - (s.arguments.input.offset + s.offset)) - 2
  | .reclaim => 6 * (s.in_file.size - (s.arguments.input.offset + s.offset)) - 3
  | .exited _ => 0

/-- Failures in the trace, per program point: a run that has not returned, or
has returned 0, has seen no failure; a run that has returned another status has
seen exactly one, in its last call. -/
def TraceOk (s : State) : Prop :=
  match s.pc with
  | .exited st =>
    if st = 0 then ∀ e ∈ s.trace, e.fatal = false
    else ∃ e rest, s.trace = e :: rest ∧ e.fatal = true ∧ ∀ x ∈ rest, x.fatal = false
  | _ => ∀ e ∈ s.trace, e.fatal = false

/-! ## Sample inputs -/

/-- A file given by the list of its cells, on blocks of one byte. -/
def File.ofList (l : List (Option Nat)) : File :=
  { size := l.length, cell := fun q => l.getD q none, block := 1 }

/-- The same file on a file system with blocks of `bs` bytes. -/
def File.on_blocks (bs : Nat) (f : File) : File := { f with block := bs }

/-- A chunk buffer filled with zeros. -/
def zero_buf : Nat → Nat := fun _ => 0

/-! ## Invariants of the output file -/

/-- No loss: an input byte that was data and that the input file no longer holds
(it is a hole now, or was set to zero) is in the output file, at the output
offset plus its distance from the input offset. -/
def Kept (a : arguments) (src : File) (s : State) : Prop :=
  ∀ q b, src.cell q = some b → s.in_file.cell q ≠ some b →
    a.input.offset ≤ q ∧
    s.out_file.cell (a.output.offset + (q - a.input.offset)) = some b

/-- Where the output file can differ from what it was: a cell is as at the start,
or a hole, or a zero where the output file had data, or at most `BUF_SIZE - 1`
positions after the image of an input byte that was data. -/
def Touched (a : arguments) (src dst : File) (s : State) : Prop :=
  ∀ x, s.out_file.cell x = dst.cell x ∨ s.out_file.cell x = none ∨
    (s.out_file.cell x = some 0 ∧ (dst.cell x).isSome = true) ∨
    ∃ p, (src.cell p).isSome = true ∧ a.input.offset ≤ p ∧
      a.output.offset + (p - a.input.offset) ≤ x ∧
      x < a.output.offset + (p - a.input.offset) + BUF_SIZE

/-- The input positions from the input offset up to `F` are settled: the output
file reads there what the input file read at the start, and input data lies
inside the output file. -/
def Settled (a : arguments) (src : File) (s : State) (F : Nat) : Prop :=
  ∀ q, a.input.offset ≤ q → q < F → q < src.size →
    s.out_file.byte (a.output.offset + (q - a.input.offset)) = src.byte q ∧
    ((src.cell q).isSome = true → a.output.offset + (q - a.input.offset) < s.out_file.size)

/-- The output file reads zero at the images of the input positions from `F` on. -/
def Ahead (a : arguments) (src : File) (s : State) (F : Nat) : Prop :=
  ∀ q, a.input.offset ≤ q → F ≤ q → q < src.size →
    s.out_file.byte (a.output.offset + (q - a.input.offset)) = 0

/-- The chunk just written is in the output file. -/
def Written (a : arguments) (src : File) (s : State) : Prop :=
  (∀ i, i < s.len → s.out_file.cell (a.output.offset + s.offset + i) =
    some (src.byte (a.input.offset + s.offset + i))) ∧
  (0 < s.len → a.output.offset + s.offset + s.len ≤ s.out_file.size)

/-- The invariant of the output file, per program point. -/
def OutInv (a : arguments) (src dst : File) (s : State) : Prop :=
  match s.pc with
  | .start => True
  | .reclaim =>
    Kept a src s ∧ Touched a src dst s ∧ Settled a src s (a.input.offset + s.offset) ∧
    Written a src s ∧ Ahead a src s (a.input.offset + s.offset + s.len)
  | .exited st =>
    Kept a src s ∧ Touched a src dst s ∧
    (st = 0 → ∀ q, a.input.offset ≤ q → q < src.size →
      q - a.input.offset < effective_len a src →
      s.out_file.byte (a.output.offset + (q - a.input.offset)) = src.byte q ∧
      ((src.cell q).isSome = true →
        a.output.offset + (q - a.input.offset) < s.out_file.size))
  | _ =>
    Kept a src s ∧ Touched a src dst s ∧ Settled a src s (a.input.offset + s.offset) ∧
    Ahead a src s (a.input.offset + s.offset)

/-! ## Storage held by the files -/

/-- Number of allocated bytes of a file. -/
def allocated (f : File) : Nat :=
  (List.range f.size).countP (fun q => (f.cell q).isSome)

/-- The call is a successful `write` that covers output position `x`. -/
def Event.wrote (e : Event) (x : Nat) : Bool :=
  match e.prim, e.ret with
  | .write, .ok m => decide (e.offset ≤ x ∧ x < e.offset + m)
  | _, _ => false

/-- Some `write` of the run covers output position `x`. -/
def written (t : List Event) (x : Nat) : Bool := t.any (fun e => e.wrote x)

/-- The copies the run has made, per program point: an input byte that a `write`
of the run has copied reads zero in the input file (it was deallocated or set to
zero), except inside the chunk between its `write` and its deallocation. -/
def HeldInv (a : arguments) (s : State) : Prop :=
  match s.pc with
  | .reclaim =>
    (∀ q, a.input.offset ≤ q →
      written s.trace (a.output.offset + (q - a.input.offset)) = true →
      s.in_file.byte q = 0 ∨
        (a.input.offset + s.offset ≤ q ∧ q < a.input.offset + s.offset + s.len)) ∧
    ∃ cnt rest, s.trace = ⟨.write, a.output.offset + s.offset, cnt, .ok s.len⟩ :: rest
  | .exited _ =>
    ∃ lo, ∀ q, a.input.offset ≤ q →
      written s.trace (a.output.offset + (q - a.input.offset)) = true →
      s.in_file.byte q = 0 ∨ (lo ≤ q ∧ q < lo + BUF_SIZE)
  | _ =>
    ∀ q, a.input.offset ≤ q →
      written s.trace (a.output.offset + (q - a.input.offset)) = true →
      s.in_file.byte q = 0

/-- Rank of a program point inside one loop iteration. -/
def PC.rank : PC → Nat
  | .start => 6
  | .loop => 5
  | .do_read => 4
  | .seek_out => 3
  | .do_write => 2
  | .reclaim => 1
  | .exited _ => 0

/-- A measure that falls with every step when the blocks are single bytes: six
per allocated input byte plus the rank of the program point. -/
def storage (s : State) : Nat := 6 * allocated s.in_file + s.pc.rank

/-- An environment in which every `read` and `write` transfers at most one byte. -/
def one_byte : Nat → Outcome := fun _ => .short 1

/-- An environment in which every call fails with `EBADF`, as the first call
does on an output descriptor that cannot be written. -/
def bad_descriptor : Nat → Outcome := fun _ => .fail .EBADF

/-! # Theorems -/


theorem findData_some {f : File} {p : Nat} : ∀ (n pos : Nat), findData f pos n = some p →
    pos ≤ p ∧ p < pos + n ∧ (f.cell p).isSome = true ∧ ∀ q, pos ≤ q → q < p → f.cell q = none := by
  intro n
  induction n with
  | zero => intro pos h; simp [findData] at h
  | succ n ih =>
    intro pos h
    simp only [findData] at h
    split at h
    · rename_i hc
      simp only [Option.some.injEq] at h
      subst h
      exact ⟨le_refl _, by omega, hc, fun q h1 h2 => by omega⟩
    · rename_i hc
      obtain ⟨h1, h2, h3, h4⟩ := ih (pos + 1) h
      refine ⟨by omega, by omega, h3, fun q hq1 hq2 => ?_⟩
      by_cases hq : q = pos
      · subst hq
        simpa using hc
      · exact h4 q (by omega) hq2

theorem findData_none {f : File} : ∀ (n pos : Nat), findData f pos n = none →
    ∀ q, pos ≤ q → q < pos + n → f.cell q = none := by
  intro n
  induction n with
  | zero => intro pos _ q h1 h2; omega
  | succ n ih =>
    intro pos h q h1 h2
    simp only [findData] at h
    split at h
    · simp at h
    · rename_i hc
      by_cases hq : q = pos
      · subst hq
        simpa using hc
      · exact ih (pos + 1) h q (by omega) (by omega)

theorem Fault.errno_not_end_of_data (e : Fault) : e.errno ≠ Errno.ENXIO := by
  cases e <;> simp [Fault.errno]

theorem Errno.toNat_pos (e : Errno) : e.toNat ≠ 0 := by
  cases e <;> simp [Errno.toNat]

theorem fallocate_ok {f g : File} {offset len : Nat} {o : Outcome}
    (h : fallocate f offset len o = .ok g) :
    g = f.punch offset len ∧ 0 < len ∧ offset + len ≤ OFF_MAX := by
  unfold fallocate at h
  split at h
  · simp at h
  · split at h
    · simp at h
    · split at h
      · simp at h
      · simp only [Except.ok.injEq] at h
        exact ⟨h.symm, by omega, by omega⟩

theorem lseek_data_ok {f : File} {offset p : Nat} {o : Outcome}
    (h : lseek_data f offset o = .ok p) :
    offset ≤ p ∧ p < f.size ∧ (f.cell p).isSome = true ∧
      ∀ q, offset ≤ q → q < p → f.cell q = none := by
  unfold lseek_data at h
  split at h
  · simp at h
  · split at h
    · simp at h
    · split at h
      · rename_i hfd
        simp only [Except.ok.injEq] at h
        subst h
        obtain ⟨h1, h2, h3, h4⟩ := findData_some _ _ hfd
        exact ⟨h1, by omega, h3, h4⟩
      · simp at h

theorem lseek_data_enxio {f : File} {offset : Nat} {o : Outcome}
    (hsz : f.size ≤ OFF_MAX) (h : lseek_data f offset o = .error Errno.ENXIO) :
    ∀ q, offset ≤ q → q < f.size → f.cell q = none := by
  unfold lseek_data at h
  split at h
  · rename_i e
    simp only [Except.error.injEq] at h
    exact absurd h (Fault.errno_not_end_of_data e)
  · split at h
    · intro q h1 h2; omega
    · split at h
      · simp at h
      · rename_i hfd
        intro q h1 h2
        exact findData_none _ _ hfd q h1 (by omega)

theorem lseek_set_ok {offset p : Nat} {o : Outcome} (h : lseek_set offset o = .ok p) :
    p = offset ∧ offset ≤ OFF_MAX := by
  unfold lseek_set at h
  split at h
  · simp at h
  · split at h
    · simp at h
    · simp only [Except.ok.injEq] at h
      exact ⟨h.symm, by omega⟩

theorem read_ok {f : File} {pos count k : Nat} {o : Outcome} (h : read f pos count o = .ok k) :
    k ≤ count ∧ k ≤ f.size - pos := by
  unfold read at h
  split at h
  · simp at h
  · simp only [Except.ok.injEq] at h
    omega
  · simp only [Except.ok.injEq] at h
    omega

theorem write_ok {count m : Nat} {o : Outcome} (h : write count o = .ok m) : m ≤ count := by
  unfold write at h
  split at h
  · simp at h
  · simp only [Except.ok.injEq] at h
    omega
  · simp only [Except.ok.injEq] at h
    omega


theorem punch_cell_out (f : File) (offset len q : Nat)
    (h : ¬ (offset ≤ q ∧ q < offset + len)) : (f.punch offset len).cell q = f.cell q := by
  simp only [File.punch, h, if_false]

theorem punch_cell_in (f : File) (offset len q : Nat) (h : offset ≤ q ∧ q < offset + len) :
    (f.punch offset len).cell q = none ∨
    ((f.punch offset len).cell q = some 0 ∧ (f.cell q).isSome = true ∧
      ¬ f.whole_block offset len q) := by
  simp only [File.punch, h, and_self, if_true]
  split
  · exact Or.inl rfl
  · rename_i hw
    cases hc : f.cell q with
    | none => exact Or.inl rfl
    | some v => exact Or.inr ⟨rfl, rfl, hw⟩

theorem punch_cell_whole (f : File) (offset len q : Nat) (h : offset ≤ q ∧ q < offset + len)
    (hw : f.whole_block offset len q) : (f.punch offset len).cell q = none := by
  simp only [File.punch, h, and_self, if_true, hw]

theorem punch_byte_in (f : File) (offset len q : Nat) (h : offset ≤ q ∧ q < offset + len) :
    (f.punch offset len).byte q = 0 := by
  rcases punch_cell_in f offset len q h with h1 | ⟨h1, -, -⟩
  · simp [File.byte, h1]
  · simp [File.byte, h1]

theorem whole_block_one (f : File) (offset len q : Nat) (hb : f.block = 1)
    (h : offset ≤ q ∧ q < offset + len) : f.whole_block offset len q := by
  simp only [File.whole_block, hb, Nat.div_one, Nat.mul_one]
  omega

theorem whole_block_aligned (f : File) (offset len : Nat) (h1 : offset % f.block = 0)
    (h2 : f.block ≤ len) : f.whole_block offset len offset := by
  have h3 : offset / f.block * f.block = offset := Nat.div_mul_cancel (Nat.dvd_of_mod_eq_zero h1)
  simp only [File.whole_block, Nat.add_mul, Nat.one_mul, h3]
  omega

/-! ## Preservation of the core invariant -/

theorem run_succ (oracle : Nat → Outcome) (n : Nat) (s : State) :
    run oracle (n + 1) s = step oracle (run oracle n s) := by
  induction n generalizing s with
  | zero => rfl
  | succ n ih =>
    show run oracle (n + 1) (step oracle s) = _
    rw [ih]
    rfl

theorem available_le {a : arguments} {src : File} {p : Nat}
    (hr : InRange a src) (h1 : a.input.offset ≤ p) (h2 : p ≤ src.size) :
    available a src = src.size - a.input.offset := by
  obtain ⟨h3, _, _, h4⟩ := hr
  simp only [available, wsub, SIZE_MOD, OFF_MAX] at *
  omega

theorem effective_len_lt (a : arguments) (src : File) : effective_len a src < SIZE_MOD := by
  have h : available a src < SIZE_MOD := by
    simp only [available, wsub, SIZE_MOD]
    omega
  unfold effective_len
  split <;> omega

theorem core_init (a : arguments) (src dst : File) (buf : Nat → Nat) :
    Core a src dst (State.init a src dst buf) := by
  simp [Core, State.init]

theorem core_step {a : arguments} {src dst : File} (hr : InRange a src)
    (oracle : Nat → Outcome) (s : State) (h : Core a src dst s) :
    Core a src dst (step oracle s) := by
  obtain ⟨hA, hB, hL, hN⟩ := hr
  obtain ⟨pc, args, offset, len, rem, buf, inf, inp, outf, outp, tr⟩ := s
  cases pc with
  | start =>
    simp only [Core] at h
    obtain ⟨rfl, rfl, rfl, rfl, rfl⟩ := h
    simp only [step, step_start]
    split
    · exact ⟨rfl, rfl, fun q => Or.inl rfl⟩
    · rename_i f hf
      obtain ⟨rfl, h1, h2⟩ := fallocate_ok hf
      have := effective_len_lt args inf
      refine ⟨⟨rfl, rfl, ⟨rfl, fun q => Or.inl rfl⟩, h2, ?_⟩, Or.inl rfl, fun q _ => rfl⟩
      simp only [wsub, SIZE_MOD, effective_len, available] at *
      omega
  | loop =>
    simp only [Core, Common, Unchanged] at h
    obtain ⟨⟨rfl, hsz, hmono, hout, hrem⟩, hoff, hun⟩ := h
    simp only [step, step_loop]
    split
    · exact ⟨hsz, hmono⟩
    · split
      · exact ⟨hsz, hmono⟩
      · rename_i p hp
        have hw : wadd a.input.offset offset = a.input.offset + offset := by
          simp only [wadd, SIZE_MOD, OFF_MAX] at *
          omega
        simp only [hw] at hp
        obtain ⟨h1, h2, h3, h4⟩ := lseek_data_ok hp
        have hs : wsub p a.input.offset = p - a.input.offset := by
          simp only [wsub, SIZE_MOD, OFF_MAX] at *
          omega
        have hp2 : a.input.offset + (p - a.input.offset) = p := by omega
        simp only [Core, Common, AtChunk, Unchanged, hs, hp2]
        refine ⟨⟨trivial, hsz, hmono, hout, trivial⟩, ⟨by omega, h3, ?_, ?_⟩, trivial⟩
        · intro q hq
          exact hun q (by omega)
        · split <;> omega
  | do_read =>
    simp only [Core, Common, AtChunk, Unchanged] at h
    obtain ⟨⟨rfl, hsz, hmono, hout, hrem⟩, ⟨hlt, hdata, hun, hlen⟩, hpos⟩ := h
    simp only [step, step_read]
    split
    · exact ⟨hsz, hmono⟩
    · rename_i k hk
      obtain ⟨h1, h2⟩ := read_ok hk
      simp only [Core, Common, AtChunk, Unchanged]
      refine ⟨⟨trivial, hsz, hmono, hout, hrem⟩, ⟨hlt, hdata, hun, by omega⟩, by omega, ?_⟩
      intro i hi
      simp only [hi, if_true, File.byte, hpos]
      rw [hun _ (by omega)]
  | seek_out =>
    simp only [Core, Common, AtChunk, Unchanged] at h
    obtain ⟨⟨rfl, hsz, hmono, hout, hrem⟩, ⟨hlt, hdata, hun, hlen⟩, hend, hbuf⟩ := h
    simp only [step, step_seek_out]
    split
    · exact ⟨hsz, hmono⟩
    · rename_i p hp
      obtain ⟨rfl, h1⟩ := lseek_set_ok hp
      have hav := available_le (p := a.input.offset + offset) ⟨hA, hB, hL, hN⟩ (by omega) (by omega)
      have hw : wadd a.output.offset offset = a.output.offset + offset := by
        simp only [wadd, SIZE_MOD, OFF_MAX] at *
        omega
      simp only [Core, Common, AtChunk, Unchanged]
      exact ⟨⟨trivial, hsz, hmono, hout, hrem⟩, ⟨hlt, hdata, hun, hlen⟩, hend, hbuf, hw⟩
  | do_write =>
    simp only [Core, Common, AtChunk, Unchanged] at h
    obtain ⟨⟨rfl, hsz, hmono, hout, hrem⟩, ⟨hlt, hdata, hun, hlen⟩, hend, hbuf, hpos⟩ := h
    simp only [step, step_write]
    split
    · exact ⟨hsz, hmono⟩
    · rename_i m hm
      have h1 := write_ok hm
      simp only [Core, Common, AtChunk, Unchanged]
      exact ⟨⟨trivial, hsz, hmono, hout, hrem⟩, ⟨hlt, hdata, hun, by omega⟩, by omega⟩
  | reclaim =>
    simp only [Core, Common, AtChunk, Unchanged] at h
    obtain ⟨⟨rfl, hsz, hmono, hout, hrem⟩, ⟨hlt, hdata, hun, hlen⟩, hend⟩ := h
    simp only [step, step_reclaim]
    have hw : wadd a.input.offset offset = a.input.offset + offset := by
      simp only [wadd, SIZE_MOD, OFF_MAX] at *
      omega
    have hw2 : wadd offset len = offset + len := by
      simp only [wadd, SIZE_MOD, OFF_MAX] at *
      omega
    split
    · exact ⟨hsz, hmono⟩
    · rename_i f hf
      obtain ⟨rfl, h1, h2⟩ := fallocate_ok hf
      have hL2 := effective_len_lt a src
      obtain ⟨hblk, hcells⟩ := hmono
      simp only [Core, Common, Unchanged, Mono, hw, hw2]
      refine ⟨⟨trivial, hsz, ⟨hblk, ?_⟩, hout, ?_⟩, Or.inr (by omega), ?_⟩
      · intro q
        by_cases hq : a.input.offset + offset ≤ q ∧ q < a.input.offset + offset + len
        · rcases punch_cell_in inf _ _ q hq with h3 | ⟨h3, -, h4⟩
          · exact Or.inr (Or.inl h3)
          · refine Or.inr (Or.inr ⟨h3, fun hb => h4 ?_⟩)
            exact whole_block_one inf _ _ q (by simpa [hb] using hblk) hq
        · rw [punch_cell_out inf _ _ q hq]
          exact hcells q
      · rw [hrem]
        simp only [wsub, SIZE_MOD, BUF_SIZE] at *
        omega
      · intro q hq
        rw [punch_cell_out inf _ _ q (by omega)]
        exact hun q (by omega)
  | exited st =>
    simpa only [step] using h

/-! ## Termination -/

theorem core_run {a : arguments} {src : File} (dst : File) (hr : InRange a src)
    (oracle : Nat → Outcome) (buf : Nat → Nat) (n : Nat) :
    Core a src dst (run oracle n (State.init a src dst buf)) := by
  induction n with
  | zero => exact core_init a src dst buf
  | succ n ih =>
    rw [run_succ]
    exact core_step hr oracle _ ih

theorem step_exited (oracle : Nat → Outcome) (s : State) (st : Nat) (h : s.pc = .exited st) :
    step oracle s = s := by
  simp only [step, h]

theorem run_exited (oracle : Nat → Outcome) (n : Nat) (s : State) (st : Nat)
    (h : s.pc = .exited st) : run oracle n s = s := by
  induction n with
  | zero => rfl
  | succ n ih => rw [run_succ, ih, step_exited oracle s st h]

theorem run_add (oracle : Nat → Outcome) (m n : Nat) (s : State) :
    run oracle (m + n) s = run oracle m (run oracle n s) := by
  induction m with
  | zero => simp [run]
  | succ m ih => rw [Nat.succ_add, run_succ, run_succ, ih]

theorem measure_step {a : arguments} {src dst : File} (hr : InRange a src)
    (oracle : Nat → Outcome) (s : State) (h : Core a src dst s)
    (hne : ∀ st, s.pc ≠ .exited st) : measure (step oracle s) < measure s := by
  obtain ⟨hA, hB, hL, hN⟩ := hr
  obtain ⟨pc, args, offset, len, rem, buf, inf, inp, outf, outp, tr⟩ := s
  cases pc with
  | start =>
    simp only [Core] at h
    obtain ⟨rfl, rfl, rfl, rfl, rfl⟩ := h
    simp only [step, step_start]
    split
    · simp [measure]
    · rename_i f hf
      simp only [measure]
      omega
  | loop =>
    simp only [Core, Common, Unchanged] at h
    obtain ⟨⟨rfl, hsz, hmono, hout, hrem⟩, hoff, hun⟩ := h
    simp only [step, step_loop]
    split
    · simp [measure]
    · split
      · simp [measure]
      · rename_i p hp
        have hw : wadd a.input.offset offset = a.input.offset + offset := by
          simp only [wadd, SIZE_MOD, OFF_MAX] at *
          omega
        simp only [hw] at hp
        obtain ⟨h1, h2, h3, h4⟩ := lseek_data_ok hp
        have hs : wsub p a.input.offset = p - a.input.offset := by
          simp only [wsub, SIZE_MOD, OFF_MAX] at *
          omega
        simp only [measure, hs]
        omega
  | do_read =>
    simp only [Core, Common, AtChunk, Unchanged] at h
    obtain ⟨⟨rfl, hsz, hmono, hout, hrem⟩, ⟨hlt, hdata, hun, hlen⟩, hpos⟩ := h
    simp only [step, step_read]
    split
    · simp only [measure]; omega
    · simp only [measure]; omega
  | seek_out =>
    simp only [Core, Common, AtChunk, Unchanged] at h
    obtain ⟨⟨rfl, hsz, hmono, hout, hrem⟩, ⟨hlt, hdata, hun, hlen⟩, hend, hbuf⟩ := h
    simp only [step, step_seek_out]
    split
    · simp only [measure]; omega
    · simp only [measure]; omega
  | do_write =>
    simp only [Core, Common, AtChunk, Unchanged] at h
    obtain ⟨⟨rfl, hsz, hmono, hout, hrem⟩, ⟨hlt, hdata, hun, hlen⟩, hend, hbuf, hpos⟩ := h
    simp only [step, step_write]
    split
    · simp only [measure]; omega
    · simp only [measure]; omega
  | reclaim =>
    simp only [Core, Common, AtChunk, Unchanged] at h
    obtain ⟨⟨rfl, hsz, hmono, hout, hrem⟩, ⟨hlt, hdata, hun, hlen⟩, hend⟩ := h
    simp only [step, step_reclaim]
    have hw2 : wadd offset len = offset + len := by
      simp only [wadd, SIZE_MOD, OFF_MAX] at *
      omega
    split
    · simp only [measure]; omega
    · rename_i f hf
      obtain ⟨rfl, h1, h2⟩ := fallocate_ok hf
      simp only [measure, hw2, File.punch]
      omega
  | exited st => exact absurd rfl (hne st)

theorem run_exits_within {a : arguments} {src dst : File} (hr : InRange a src)
    (oracle : Nat → Outcome) :
    ∀ (n : Nat) (s : State), Core a src dst s → measure s ≤ n →
      ∃ st, (run oracle n s).pc = .exited st := by
  intro n
  induction n with
  | zero =>
    intro s hc hm
    by_cases hex : ∃ st, s.pc = .exited st
    · exact hex
    · have := measure_step hr oracle s hc (fun st hst => hex ⟨st, hst⟩)
      omega
  | succ n ih =>
    intro s hc hm
    by_cases hex : ∃ st, s.pc = .exited st
    · obtain ⟨st, hst⟩ := hex
      exact ⟨st, by rw [run_exited oracle _ s st hst]; exact hst⟩
    · have := measure_step hr oracle s hc (fun st hst => hex ⟨st, hst⟩)
      exact ih (step oracle s) (core_step hr oracle s hc) (by omega)

theorem main_returns {a : arguments} {src : File} (dst : File) (hr : InRange a src)
    (oracle : Nat → Outcome) (buf : Nat → Nat) (n : Nat) (hn : 6 * src.size + 2 ≤ n) :
    ∃ st, (run oracle n (State.init a src dst buf)).status = some st := by
  obtain ⟨st, hst⟩ := run_exits_within hr oracle n _ (core_init a src dst buf)
    (by simpa [measure, State.init] using hn)
  exact ⟨st, by simp [State.status, hst]⟩

/-! ## Failures in the trace -/

theorem traceOk_init (a : arguments) (src dst : File) (buf : Nat → Nat) :
    TraceOk (State.init a src dst buf) := by
  simp [TraceOk, State.init]

theorem traceOk_step (oracle : Nat → Outcome) (s : State) (h : TraceOk s) :
    TraceOk (step oracle s) := by
  obtain ⟨pc, args, offset, len, rem, buf, inf, inp, outf, outp, tr⟩ := s
  cases pc with
  | start =>
    simp only [TraceOk] at h
    simp only [step, step_start]
    split
    · rename_i e he
      simp only [TraceOk, Errno.toNat_pos, if_false]
      exact ⟨_, _, rfl, by simp [Event.fatal], h⟩
    · simp only [TraceOk, List.mem_cons]
      rintro e (rfl | he)
      · rfl
      · exact h e he
  | loop =>
    simp only [TraceOk] at h
    simp only [step, step_loop]
    split
    · simpa [TraceOk] using h
    · split
      · rename_i e he
        by_cases hx : e = Errno.ENXIO
        · subst hx
          simp only [TraceOk, if_true, List.mem_cons]
          rintro e (rfl | he)
          · rfl
          · exact h e he
        · simp only [TraceOk, hx, if_false, Errno.toNat_pos]
          exact ⟨_, _, rfl, by simp [Event.fatal, hx], h⟩
      · simp only [TraceOk, List.mem_cons]
        rintro e (rfl | he)
        · rfl
        · exact h e he
  | do_read =>
    simp only [TraceOk] at h
    simp only [step, step_read]
    split
    · simp only [TraceOk, Errno.toNat_pos, if_false]
      exact ⟨_, _, rfl, by simp [Event.fatal], h⟩
    · simp only [TraceOk, List.mem_cons]
      rintro e (rfl | he)
      · rfl
      · exact h e he
  | seek_out =>
    simp only [TraceOk] at h
    simp only [step, step_seek_out]
    split
    · simp only [TraceOk, Errno.toNat_pos, if_false]
      exact ⟨_, _, rfl, by simp [Event.fatal], h⟩
    · simp only [TraceOk, List.mem_cons]
      rintro e (rfl | he)
      · rfl
      · exact h e he
  | do_write =>
    simp only [TraceOk] at h
    simp only [step, step_write]
    split
    · simp only [TraceOk, Errno.toNat_pos, if_false]
      exact ⟨_, _, rfl, by simp [Event.fatal], h⟩
    · simp only [TraceOk, List.mem_cons]
      rintro e (rfl | he)
      · rfl
      · exact h e he
  | reclaim =>
    simp only [TraceOk] at h
    simp only [step, step_reclaim]
    split
    · simp only [TraceOk, Errno.toNat_pos, if_false]
      exact ⟨_, _, rfl, by simp [Event.fatal], h⟩
    · simp only [TraceOk, List.mem_cons]
      rintro e (rfl | he)
      · rfl
      · exact h e he
  | exited st => simpa only [step] using h

theorem traceOk_run (oracle : Nat → Outcome) (a : arguments) (src dst : File)
    (buf : Nat → Nat) (n : Nat) : TraceOk (run oracle n (State.init a src dst buf)) := by
  induction n with
  | zero => exact traceOk_init a src dst buf
  | succ n ih =>
    rw [run_succ]
    exact traceOk_step oracle _ ih

theorem run_stays (oracle : Nat → Outcome) (s : State) (n m : Nat) (st : Nat)
    (h : (run oracle n s).pc = .exited st) (hm : n ≤ m) : run oracle m s = run oracle n s := by
  obtain ⟨k, rfl⟩ := Nat.exists_eq_add_of_le hm
  rw [Nat.add_comm, run_add, run_exited oracle k _ st h]

theorem falls_along_run {a : arguments} {src : File} (dst : File) (hr : InRange a src)
    (oracle : Nat → Outcome) (buf : Nat → Nat) (mu : State → Nat)
    (hmu : ∀ s, Core a src dst s → (∀ st, s.pc ≠ .exited st) → mu (step oracle s) < mu s)
    (n k : Nat)
    (hne : ∀ st, (run oracle (n + k + 1) (State.init a src dst buf)).pc ≠ .exited st) :
    mu (run oracle (n + k + 1) (State.init a src dst buf)) <
      mu (run oracle n (State.init a src dst buf)) := by
  induction k with
  | zero =>
    rw [run_succ]
    apply hmu _ (core_run _ hr oracle buf n)
    intro st hst
    apply hne st
    rw [Nat.add_zero, run_succ, step_exited oracle _ st hst]
    exact hst
  | succ k ih =>
    have hne2 : ∀ st, (run oracle (n + k + 1) (State.init a src dst buf)).pc ≠ .exited st := by
      intro st hst
      apply hne st
      rw [show n + (k + 1) + 1 = (n + k + 1) + 1 from rfl, run_succ, step_exited oracle _ st hst]
      exact hst
    have h1 := ih hne2
    have h2 : mu (run oracle (n + (k + 1) + 1) (State.init a src dst buf)) <
        mu (run oracle (n + k + 1) (State.init a src dst buf)) := by
      rw [show n + (k + 1) + 1 = (n + k + 1) + 1 from rfl, run_succ]
      exact hmu _ (core_run _ hr oracle buf _) hne2
    omega

theorem Errno.toNat_lt (e : Errno) : e.toNat < 256 := by
  cases e <;> simp [Errno.toNat]

/-- Every status a step can produce is below 256. -/
theorem status_lt_step (oracle : Nat → Outcome) (s : State)
    (h : ∀ st, s.pc = .exited st → st < 256) :
    ∀ st, (step oracle s).pc = .exited st → st < 256 := by
  obtain ⟨pc, args, offset, len, rem, buf, inf, inp, outf, outp, tr⟩ := s
  intro st
  cases pc with
  | start =>
    simp only [step, step_start]
    split
    · simp only [PC.exited.injEq]
      rintro rfl
      exact Errno.toNat_lt _
    · simp
  | loop =>
    simp only [step, step_loop]
    split
    · simp only [PC.exited.injEq]
      rintro rfl
      omega
    · split
      · simp only [PC.exited.injEq]
        rintro rfl
        split
        · omega
        · exact Errno.toNat_lt _
      · simp
  | do_read =>
    simp only [step, step_read]
    split
    · simp only [PC.exited.injEq]
      rintro rfl
      exact Errno.toNat_lt _
    · simp
  | seek_out =>
    simp only [step, step_seek_out]
    split
    · simp only [PC.exited.injEq]
      rintro rfl
      exact Errno.toNat_lt _
    · simp
  | do_write =>
    simp only [step, step_write]
    split
    · simp only [PC.exited.injEq]
      rintro rfl
      exact Errno.toNat_lt _
    · simp
  | reclaim =>
    simp only [step, step_reclaim]
    split
    · simp only [PC.exited.injEq]
      rintro rfl
      exact Errno.toNat_lt _
    · simp
  | exited st0 =>
    simp only [step]
    exact h st

theorem status_lt_run (oracle : Nat → Outcome) (a : arguments) (src dst : File)
    (buf : Nat → Nat) (n : Nat) :
    ∀ st, (run oracle n (State.init a src dst buf)).pc = .exited st → st < 256 := by
  induction n with
  | zero => intro st h; simp [run, State.init] at h
  | succ n ih =>
    rw [run_succ]
    exact status_lt_step oracle _ ih

theorem status_of_fatal (oracle : Nat → Outcome) (a : arguments) (src dst : File)
    (buf : Nat → Nat) (n : Nat) {e : Event}
    (hmem : e ∈ (run oracle n (State.init a src dst buf)).trace) (hf : e.fatal = true) :
    ∃ st rest, (run oracle n (State.init a src dst buf)).pc = .exited st ∧ st ≠ 0 ∧ st < 256 ∧
      (run oracle n (State.init a src dst buf)).trace = e :: rest ∧
      ∀ x ∈ rest, x.fatal = false := by
  have ht := traceOk_run oracle a src dst buf n
  have hlt := status_lt_run oracle a src dst buf n
  generalize run oracle n (State.init a src dst buf) = s at *
  obtain ⟨pc, args, offset, len, rem, buf, inf, inp, outf, outp, tr⟩ := s
  simp only at hmem
  have hbad : ¬ ∀ x ∈ tr, x.fatal = false := by
    intro h
    have := h e hmem
    simp [hf] at this
  cases pc with
  | exited st =>
    simp only [TraceOk] at ht
    by_cases h0 : st = 0
    · simp only [h0, if_true] at ht
      exact absurd ht hbad
    · simp only [h0, if_false] at ht
      obtain ⟨e2, rest2, heq, -, hr2⟩ := ht
      subst heq
      simp only [List.mem_cons] at hmem
      rcases hmem with rfl | hmem
      · exact ⟨st, rest2, rfl, h0, hlt st rfl, rfl, hr2⟩
      · have := hr2 e hmem
        simp [hf] at this
  | _ => exact absurd ht hbad

/-! ## Preservation of the output invariant -/

theorem outInv_init (a : arguments) (src dst : File) (buf : Nat → Nat) :
    OutInv a src dst (State.init a src dst buf) := by
  simp [OutInv, State.init]

theorem outInv_step {a : arguments} {src dst : File} (hr : InRange a src)
    (oracle : Nat → Outcome) (s : State) (h : Core a src dst s) (ho : OutInv a src dst s) :
    OutInv a src dst (step oracle s) := by
  obtain ⟨hA, hB, hL, hN⟩ := hr
  obtain ⟨pc, args, offset, len, rem, buf, inf, inp, outf, outp, tr⟩ := s
  cases pc with
  | start =>
    simp only [Core] at h
    obtain ⟨rfl, rfl, rfl, rfl, rfl⟩ := h
    simp only [step, step_start]
    split
    · rename_i e he
      refine ⟨?_, ?_, fun h0 => absurd h0 (Errno.toNat_pos e)⟩
      · intro q b h1 h2
        exact absurd h1 h2
      · intro x
        exact Or.inl rfl
    · rename_i f hf
      obtain ⟨rfl, h1, h2⟩ := fallocate_ok hf
      simp only [OutInv, Kept, Touched, Settled, Ahead]
      refine ⟨fun q b h1 h2 => absurd h1 h2, ?_, ?_, ?_⟩
      · intro x
        by_cases hx : args.output.offset ≤ x ∧
            x < args.output.offset + wsub inf.size args.input.offset
        · rcases punch_cell_in outf _ _ x hx with h3 | ⟨h3, h4, -⟩
          · exact Or.inr (Or.inl h3)
          · exact Or.inr (Or.inr (Or.inl ⟨h3, h4⟩))
        · exact Or.inl (punch_cell_out outf _ _ x hx)
      · intro q h3 h4 h5
        omega
      · intro q h3 h4 h5
        have hav := available_le (p := q) ⟨hA, hB, hL, hN⟩ h3 (by omega)
        simp only [available] at hav
        exact punch_byte_in outf _ _ _ (by omega)
  | loop =>
    simp only [Core, Common, Unchanged] at h
    obtain ⟨⟨rfl, hsz, hmono, hout, hrem⟩, hoff, hun⟩ := h
    simp only [OutInv, Kept, Touched, Settled, Ahead, File.byte] at ho
    obtain ⟨hk, ht, hs, ha⟩ := ho
    have hL2 := effective_len_lt a src
    have hw : wadd a.input.offset offset = a.input.offset + offset := by
      simp only [wadd, SIZE_MOD, OFF_MAX] at *
      omega
    simp only [step, step_loop]
    split
    · rename_i h0
      refine ⟨hk, ht, fun _ q h1 h2 h3 => ?_⟩
      simp only [File.byte]
      have h4 : effective_len a src = offset := by
        simp only [h0] at hrem
        simp only [wsub, SIZE_MOD, OFF_MAX] at *
        omega
      exact hs q h1 (by omega) h2
    · split
      · rename_i e he
        refine ⟨hk, ht, fun h0 q h1 h2 h3 => ?_⟩
        simp only [File.byte]
        by_cases hx : e = Errno.ENXIO
        · subst hx
          simp only [hw] at he
          have h5 := lseek_data_enxio (by omega) he
          by_cases hq : q < a.input.offset + offset
          · exact hs q h1 hq h2
          · have h6 : inf.cell q = none := h5 q (by omega) (by omega)
            have h7 : src.cell q = none := by rw [← hun q (by omega)]; exact h6
            have h8 := ha q h1 (by omega) h2
            rw [h7]
            exact ⟨h8, fun hc => absurd hc (by simp)⟩
        · simp only [hx, if_false] at h0
          exact absurd h0 (Errno.toNat_pos e)
      · rename_i p hp
        simp only [hw] at hp
        obtain ⟨h1, h2, h3, h4⟩ := lseek_data_ok hp
        have hs2 : wsub p a.input.offset = p - a.input.offset := by
          simp only [wsub, SIZE_MOD, OFF_MAX] at *
          omega
        have hp2 : a.input.offset + (p - a.input.offset) = p := by omega
        simp only [OutInv, hs2, hp2, Settled, Ahead, File.byte]
        refine ⟨hk, ht, ?_, ?_⟩
        · intro q h5 h6 h7
          by_cases hq : q < a.input.offset + offset
          · exact hs q h5 hq h7
          · have h8 : inf.cell q = none := h4 q (by omega) h6
            have h9 : src.cell q = none := by rw [← hun q (by omega)]; exact h8
            have h10 := ha q h5 (by omega) h7
            rw [h9]
            exact ⟨h10, fun hc => absurd hc (by simp)⟩
        · intro q h5 h6 h7
          exact ha q h5 (by omega) h7
  | do_read =>
    simp only [OutInv] at ho
    simp only [step, step_read]
    split
    · exact ⟨ho.1, ho.2.1, fun h0 => absurd h0 (Errno.toNat_pos _)⟩
    · exact ho
  | seek_out =>
    simp only [OutInv] at ho
    simp only [step, step_seek_out]
    split
    · exact ⟨ho.1, ho.2.1, fun h0 => absurd h0 (Errno.toNat_pos _)⟩
    · exact ho
  | do_write =>
    simp only [Core, Common, AtChunk, Unchanged] at h
    obtain ⟨⟨rfl, hsz, hmono, hout, hrem⟩, ⟨hlt, hdata, hun, hlen⟩, hend, hbuf, hpos⟩ := h
    simp only [OutInv, Kept, Touched, Settled, Ahead, File.byte] at ho
    obtain ⟨hk, ht, hs, ha⟩ := ho
    simp only [step, step_write]
    split
    · exact ⟨hk, ht, fun h0 => absurd h0 (Errno.toNat_pos _)⟩
    · rename_i m hm
      have hm2 := write_ok hm
      subst hpos
      simp only [OutInv, Kept, Touched, Settled, Ahead, Written, File.byte, File.store]
      refine ⟨?_, ?_, ?_, ⟨?_, ?_⟩, ?_⟩
      · intro q b h1 h2
        obtain ⟨h3, h4⟩ := hk q b h1 h2
        refine ⟨h3, ?_⟩
        by_cases hx : a.output.offset + offset ≤ a.output.offset + (q - a.input.offset) ∧
            a.output.offset + (q - a.input.offset) < a.output.offset + offset + m
        · have h5 := hun q (by omega)
          rw [h1] at h5
          exact absurd h5 h2
        · simp only [hx, if_false]
          exact h4
      · intro x
        by_cases hx : a.output.offset + offset ≤ x ∧ x < a.output.offset + offset + m
        · refine Or.inr (Or.inr (Or.inr
            ⟨a.input.offset + offset, ?_, by omega, by omega, by omega⟩))
          rw [← hun _ (le_refl _)]
          exact hdata
        · simp only [hx, if_false]
          exact ht x
      · intro q h1 h2 h3
        have hx : ¬ (a.output.offset + offset ≤ a.output.offset + (q - a.input.offset) ∧
            a.output.offset + (q - a.input.offset) < a.output.offset + offset + m) := by omega
        simp only [hx, if_false]
        obtain ⟨h4, h5⟩ := hs q h1 h2 h3
        refine ⟨h4, fun h6 => ?_⟩
        have h7 := h5 h6
        split
        · exact h7
        · exact lt_of_lt_of_le h7 (le_max_left _ _)
      · intro i hi
        have hx : a.output.offset + offset ≤ a.output.offset + offset + i ∧
            a.output.offset + offset + i < a.output.offset + offset + m := by omega
        simp only [hx, and_self, if_true]
        rw [show a.output.offset + offset + i - (a.output.offset + offset) = i by omega,
          hbuf i (by omega)]
        rfl
      · intro h0
        have h1 : m ≠ 0 := by omega
        simp only [h1, if_false]
        exact le_max_right _ _
      · intro q h1 h2 h3
        have hx : ¬ (a.output.offset + offset ≤ a.output.offset + (q - a.input.offset) ∧
            a.output.offset + (q - a.input.offset) < a.output.offset + offset + m) := by omega
        simp only [hx, if_false]
        exact ha q h1 (by omega) h3
  | reclaim =>
    simp only [Core, Common, AtChunk, Unchanged] at h
    obtain ⟨⟨rfl, hsz, hmono, hout, hrem⟩, ⟨hlt, hdata, hun, hlen⟩, hend⟩ := h
    simp only [OutInv, Kept, Touched, Settled, Ahead, Written, File.byte] at ho
    obtain ⟨hk, ht, hs, ⟨hw1, hw2⟩, ha⟩ := ho
    have hw : wadd a.input.offset offset = a.input.offset + offset := by
      simp only [wadd, SIZE_MOD, OFF_MAX] at *
      omega
    have hw3 : wadd offset len = offset + len := by
      simp only [wadd, SIZE_MOD, OFF_MAX] at *
      omega
    simp only [step, step_reclaim]
    split
    · exact ⟨hk, ht, fun h0 => absurd h0 (Errno.toNat_pos _)⟩
    · rename_i f hf
      obtain ⟨rfl, h1, h2⟩ := fallocate_ok hf
      have hwr : ∀ q, a.input.offset + offset ≤ q → q < a.input.offset + offset + len →
          outf.cell (a.output.offset + (q - a.input.offset)) = some (src.byte q) := by
        intro q h3 h4
        have h5 := hw1 (q - (a.input.offset + offset)) (by omega)
        rw [show a.output.offset + offset + (q - (a.input.offset + offset)) =
            a.output.offset + (q - a.input.offset) by omega,
          show a.input.offset + offset + (q - (a.input.offset + offset)) = q by omega] at h5
        exact h5
      simp only [OutInv, Kept, Touched, Settled, Ahead, File.byte, hw, hw3]
      refine ⟨?_, ht, ?_, ?_⟩
      · intro q b h3 h4
        by_cases hx : a.input.offset + offset ≤ q ∧ q < a.input.offset + offset + len
        · refine ⟨by omega, ?_⟩
          rw [hwr q hx.1 hx.2]
          simp [File.byte, h3]
        · rw [punch_cell_out inf _ _ q hx] at h4
          exact hk q b h3 h4
      · intro q h3 h4 h5
        by_cases hq : q < a.input.offset + offset
        · exact hs q h3 hq h5
        · have h6 := hwr q (by omega) (by omega)
          rw [h6]
          refine ⟨rfl, fun _ => ?_⟩
          have := hw2 h1
          omega
      · intro q h3 h4 h5
        exact ha q h3 (by omega) h5
  | exited st =>
    simpa only [step] using ho

theorem outInv_run {a : arguments} {src : File} (dst : File) (hr : InRange a src)
    (oracle : Nat → Outcome) (buf : Nat → Nat) (n : Nat) :
    OutInv a src dst (run oracle n (State.init a src dst buf)) := by
  induction n with
  | zero => exact outInv_init a src dst buf
  | succ n ih =>
    rw [run_succ]
    exact outInv_step hr oracle _ (core_run _ hr oracle buf n) ih

/-! ## Storage reclamation -/

theorem countP_lt_countP {l : List Nat} {P Q : Nat → Bool} (h : ∀ x ∈ l, P x = true → Q x = true)
    {p : Nat} (hp : p ∈ l) (hQ : Q p = true) (hP : P p = false) :
    l.countP P < l.countP Q := by
  induction l with
  | nil => simp at hp
  | cons x l ih =>
    have hmono : l.countP P ≤ l.countP Q :=
      List.countP_mono_left (fun y hy => h y (List.mem_cons_of_mem x hy))
    simp only [List.mem_cons] at hp
    rcases hp with rfl | hp
    · rw [List.countP_cons_of_pos _ _ hQ, List.countP_cons_of_neg _ _ (by simp [hP])]
      omega
    · have := ih (fun y hy => h y (List.mem_cons_of_mem x hy)) hp
      by_cases hx : P x = true
      · rw [List.countP_cons_of_pos _ _ hx, List.countP_cons_of_pos _ _ (h x (by simp) hx)]
        omega
      · rw [List.countP_cons_of_neg _ _ hx]
        by_cases hx2 : Q x = true
        · rw [List.countP_cons_of_pos _ _ hx2]
          omega
        · rw [List.countP_cons_of_neg _ _ hx2]
          exact this

theorem allocated_punch_le (f : File) (offset len : Nat) :
    allocated (f.punch offset len) ≤ allocated f := by
  unfold allocated
  apply List.countP_mono_left
  intro x _ hx
  by_cases hr : offset ≤ x ∧ x < offset + len
  · rcases punch_cell_in f offset len x hr with h | ⟨-, h, -⟩
    · simp [h] at hx
    · simpa using h
  · rw [punch_cell_out f offset len x hr] at hx
    exact hx

theorem allocated_punch_lt (f : File) (offset len p : Nat) (h1 : offset ≤ p)
    (h2 : p < offset + len) (h3 : p < f.size) (h4 : (f.cell p).isSome = true)
    (h5 : f.whole_block offset len p) :
    allocated (f.punch offset len) < allocated f := by
  unfold allocated
  apply countP_lt_countP (p := p)
  · intro x _ hx
    by_cases hr : offset ≤ x ∧ x < offset + len
    · rcases punch_cell_in f offset len x hr with h | ⟨-, h, -⟩
      · simp [h] at hx
      · exact h
    · rw [punch_cell_out f offset len x hr] at hx
      exact hx
  · simpa [File.punch] using h3
  · exact h4
  · simp [punch_cell_whole f offset len p ⟨h1, h2⟩ h5]

theorem written_cons (e : Event) (t : List Event) (x : Nat) :
    written (e :: t) x = (e.wrote x || written t x) := by
  simp [written]

theorem heldInv_init (a : arguments) (src dst : File) (buf : Nat → Nat) :
    HeldInv a (State.init a src dst buf) := by
  simp [HeldInv, State.init, written]

theorem heldInv_step {a : arguments} {src dst : File} (hr : InRange a src)
    (oracle : Nat → Outcome) (s : State) (h : Core a src dst s) (hh : HeldInv a s) :
    HeldInv a (step oracle s) := by
  obtain ⟨hA, hB, hL, hN⟩ := hr
  obtain ⟨pc, args, offset, len, rem, buf, inf, inp, outf, outp, tr⟩ := s
  cases pc with
  | start =>
    simp only [HeldInv] at hh
    simp only [step, step_start]
    split
    · refine ⟨0, fun q h1 h2 => Or.inl ?_⟩
      simp only [written_cons, Event.wrote, Bool.false_or] at h2
      exact hh q h1 h2
    · intro q h1 h2
      simp only [written_cons, Event.wrote, Bool.false_or] at h2
      exact hh q h1 h2
  | loop =>
    simp only [HeldInv] at hh
    simp only [step, step_loop]
    split
    · exact ⟨0, fun q h1 h2 => Or.inl (hh q h1 h2)⟩
    · split
      · refine ⟨0, fun q h1 h2 => Or.inl ?_⟩
        simp only [written_cons, Event.wrote, Bool.false_or] at h2
        exact hh q h1 h2
      · intro q h1 h2
        simp only [written_cons, Event.wrote, Bool.false_or] at h2
        exact hh q h1 h2
  | do_read =>
    simp only [HeldInv] at hh
    simp only [step, step_read]
    split
    · refine ⟨0, fun q h1 h2 => Or.inl ?_⟩
      simp only [written_cons, Event.wrote, Bool.false_or] at h2
      exact hh q h1 h2
    · intro q h1 h2
      simp only [written_cons, Event.wrote, Bool.false_or] at h2
      exact hh q h1 h2
  | seek_out =>
    simp only [HeldInv] at hh
    simp only [step, step_seek_out]
    split
    · refine ⟨0, fun q h1 h2 => Or.inl ?_⟩
      simp only [written_cons, Event.wrote, Bool.false_or] at h2
      exact hh q h1 h2
    · intro q h1 h2
      simp only [written_cons, Event.wrote, Bool.false_or] at h2
      exact hh q h1 h2
  | do_write =>
    simp only [Core, Common, AtChunk, Unchanged] at h
    obtain ⟨⟨rfl, hsz, hmono, hout, hrem⟩, ⟨hlt, hdata, hun, hlen⟩, hend, hbuf, hpos⟩ := h
    simp only [HeldInv] at hh
    simp only [step, step_write]
    split
    · refine ⟨0, fun q h1 h2 => Or.inl ?_⟩
      simp only [written_cons, Event.wrote, Bool.false_or] at h2
      exact hh q h1 h2
    · rename_i m hm
      subst hpos
      simp only [HeldInv]
      refine ⟨fun q h1 h2 => ?_, _, _, rfl⟩
      simp only [written_cons, Event.wrote, Bool.or_eq_true, decide_eq_true_eq] at h2
      rcases h2 with h2 | h2
      · exact Or.inr ⟨by omega, by omega⟩
      · exact Or.inl (hh q h1 h2)
  | reclaim =>
    simp only [Core, Common, AtChunk, Unchanged] at h
    obtain ⟨⟨rfl, hsz, hmono, hout, hrem⟩, ⟨hlt, hdata, hun, hlen⟩, hend⟩ := h
    simp only [HeldInv] at hh
    obtain ⟨hh, -⟩ := hh
    have hw : wadd a.input.offset offset = a.input.offset + offset := by
      simp only [wadd, SIZE_MOD, OFF_MAX] at *
      omega
    simp only [step, step_reclaim]
    split
    · refine ⟨a.input.offset + offset, fun q h1 h2 => ?_⟩
      simp only [written_cons, Event.wrote, Bool.false_or] at h2
      rcases hh q h1 h2 with h3 | h3
      · exact Or.inl h3
      · exact Or.inr ⟨h3.1, by omega⟩
    · rename_i f hf
      obtain ⟨rfl, h1, h2⟩ := fallocate_ok hf
      intro q h3 h4
      simp only [written_cons, Event.wrote, Bool.false_or] at h4
      simp only [hw]
      by_cases hx : a.input.offset + offset ≤ q ∧ q < a.input.offset + offset + len
      · exact punch_byte_in inf _ _ q hx
      · rcases hh q h3 h4 with h5 | h5
        · simp only [File.byte, punch_cell_out inf _ _ q hx]
          exact h5
        · exact absurd h5 hx
  | exited st =>
    simpa only [step] using hh

theorem heldInv_run {a : arguments} {src : File} (dst : File) (hr : InRange a src)
    (oracle : Nat → Outcome) (buf : Nat → Nat) (n : Nat) :
    HeldInv a (run oracle n (State.init a src dst buf)) := by
  induction n with
  | zero => exact heldInv_init a src dst buf
  | succ n ih =>
    rw [run_succ]
    exact heldInv_step hr oracle _ (core_run _ hr oracle buf n) ih

theorem allocated_step_le (oracle : Nat → Outcome) (s : State) :
    allocated (step oracle s).in_file ≤ allocated s.in_file := by
  obtain ⟨pc, args, offset, len, rem, buf, inf, inp, outf, outp, tr⟩ := s
  cases pc with
  | start =>
    simp only [step, step_start]
    split <;> exact le_rfl
  | loop =>
    simp only [step, step_loop]
    split
    · exact le_rfl
    · split <;> exact le_rfl
  | do_read =>
    simp only [step, step_read]
    split <;> exact le_rfl
  | seek_out =>
    simp only [step, step_seek_out]
    split <;> exact le_rfl
  | do_write =>
    simp only [step, step_write]
    split <;> exact le_rfl
  | reclaim =>
    simp only [step, step_reclaim]
    split
    · exact le_rfl
    · rename_i f hf
      obtain ⟨rfl, -, -⟩ := fallocate_ok hf
      exact allocated_punch_le _ _ _
  | exited st => exact le_rfl

theorem allocated_run_le (oracle : Nat → Outcome) (s : State) (n k : Nat) :
    allocated (run oracle (n + k) s).in_file ≤ allocated (run oracle n s).in_file := by
  induction k with
  | zero => exact le_rfl
  | succ k ih =>
    rw [show n + (k + 1) = (n + k) + 1 from rfl, run_succ]
    exact le_trans (allocated_step_le oracle _) ih

theorem storage_step {a : arguments} {src dst : File} (hr : InRange a src)
    (hb : src.block = 1)
    (oracle : Nat → Outcome) (s : State) (h : Core a src dst s)
    (hne : ∀ st, s.pc ≠ .exited st) : storage (step oracle s) < storage s := by
  obtain ⟨hA, hB, hL, hN⟩ := hr
  obtain ⟨pc, args, offset, len, rem, buf, inf, inp, outf, outp, tr⟩ := s
  cases pc with
  | start =>
    simp only [step, step_start]
    split <;> simp [storage, PC.rank]
  | loop =>
    simp only [step, step_loop]
    split
    · simp [storage, PC.rank]
    · split <;> simp [storage, PC.rank]
  | do_read =>
    simp only [step, step_read]
    split <;> simp [storage, PC.rank]
  | seek_out =>
    simp only [step, step_seek_out]
    split <;> simp [storage, PC.rank]
  | do_write =>
    simp only [step, step_write]
    split <;> simp [storage, PC.rank]
  | reclaim =>
    simp only [Core, Common, AtChunk, Unchanged] at h
    obtain ⟨⟨rfl, hsz, ⟨hblk, -⟩, hout, hrem⟩, ⟨hlt, hdata, hun, hlen⟩, hend⟩ := h
    have hw : wadd a.input.offset offset = a.input.offset + offset := by
      simp only [wadd, SIZE_MOD, OFF_MAX] at *
      omega
    simp only [step, step_reclaim]
    split
    · simp [storage, PC.rank]
    · rename_i f hf
      obtain ⟨rfl, h1, h2⟩ := fallocate_ok hf
      have := allocated_punch_lt inf (a.input.offset + offset) len (a.input.offset + offset)
        le_rfl (by omega) (by omega) hdata
        (whole_block_one inf _ _ _ (by simpa [hb] using hblk) ⟨le_rfl, by omega⟩)
      simp only [storage, PC.rank, hw]
      omega
  | exited st => exact absurd rfl (hne st)

theorem reclaim_step {a : arguments} {src dst : File} (hr : InRange a src)
    (oracle : Nat → Outcome) (s : State) (h : Core a src dst s) (hh : HeldInv a s)
    (h1 : s.pc = .reclaim) (h2 : (step oracle s).pc = .loop) :
    0 < s.len ∧ s.len ≤ BUF_SIZE ∧
    (∃ cnt rest, (step oracle s).trace =
      ⟨.fallocate_input, a.input.offset + s.offset, s.len, .ok 0⟩ ::
      ⟨.write, a.output.offset + s.offset, cnt, .ok s.len⟩ :: rest) ∧
    (∀ q, a.input.offset + s.offset ≤ q → q < a.input.offset + s.offset + s.len →
      (step oracle s).in_file.byte q = 0 ∧
      (src.whole_block (a.input.offset + s.offset) s.len q →
        (step oracle s).in_file.cell q = none)) ∧
    allocated (step oracle s).in_file ≤ allocated s.in_file ∧
    ((a.input.offset + s.offset) % src.block = 0 → src.block ≤ s.len →
      allocated (step oracle s).in_file < allocated s.in_file) := by
  obtain ⟨hA, hB, hL, hN⟩ := hr
  obtain ⟨pc, args, offset, len, rem, buf, inf, inp, outf, outp, tr⟩ := s
  simp only at h1
  subst h1
  simp only [Core, Common, AtChunk, Unchanged] at h
  obtain ⟨⟨rfl, hsz, ⟨hblk, -⟩, hout, hrem⟩, ⟨hlt, hdata, hun, hlen⟩, hend⟩ := h
  simp only [HeldInv] at hh
  obtain ⟨-, cnt, rest, rfl⟩ := hh
  simp only at hblk
  have hw : wadd a.input.offset offset = a.input.offset + offset := by
    simp only [wadd, SIZE_MOD, OFF_MAX] at *
    omega
  have hwb : ∀ o l q, src.whole_block o l q → inf.whole_block o l q := by
    intro o l q hq
    simpa only [File.whole_block, hblk] using hq
  revert h2
  simp only [step, step_reclaim]
  split
  · intro h2
    simp at h2
  · rename_i f hf
    obtain ⟨rfl, h3, h4⟩ := fallocate_ok hf
    intro _
    refine ⟨h3, hlen, ⟨cnt, rest, by simp only [hw]⟩, ?_, ?_, ?_⟩
    · intro q h5 h6
      simp only [hw]
      exact ⟨punch_byte_in inf _ _ q ⟨h5, h6⟩,
        fun h7 => punch_cell_whole inf _ _ q ⟨h5, h6⟩ (hwb _ _ _ h7)⟩
    · exact allocated_punch_le _ _ _
    · intro h5 h6
      simp only [hw]
      exact allocated_punch_lt inf (a.input.offset + offset) len (a.input.offset + offset)
        le_rfl (by omega) (by omega) hdata
        (hwb _ _ _ (whole_block_aligned src _ _ h5 h6))

/-! ## Consequences at every program point -/

theorem core_mono {a : arguments} {src dst : File} {s : State} (h : Core a src dst s) :
    Mono src s := by
  obtain ⟨pc, args, offset, len, rem, buf, inf, inp, outf, outp, tr⟩ := s
  cases pc with
  | start =>
    simp only [Core] at h
    obtain ⟨-, rfl, -⟩ := h
    exact ⟨rfl, fun q => Or.inl rfl⟩
  | exited st => exact h.2
  | loop => exact h.1.2.2.1
  | do_read => exact h.1.2.2.1
  | seek_out => exact h.1.2.2.1
  | do_write => exact h.1.2.2.1
  | reclaim => exact h.1.2.2.1

theorem kept_of {a : arguments} {src dst : File} {s : State} (h : Core a src dst s)
    (ho : OutInv a src dst s) : Kept a src s := by
  obtain ⟨pc, args, offset, len, rem, buf, inf, inp, outf, outp, tr⟩ := s
  cases pc with
  | start =>
    simp only [Core] at h
    obtain ⟨-, rfl, -⟩ := h
    intro q b h1 h2
    exact absurd h1 h2
  | exited st => exact ho.1
  | loop => exact ho.1
  | do_read => exact ho.1
  | seek_out => exact ho.1
  | do_write => exact ho.1
  | reclaim => exact ho.1

theorem held_of {a : arguments} {src dst : File} {s : State} (h : Core a src dst s)
    (hh : HeldInv a s) :
    ∃ lo, ∀ q, a.input.offset ≤ q → s.in_file.byte q ≠ 0 →
      written s.trace (a.output.offset + (q - a.input.offset)) = true →
      lo ≤ q ∧ q < lo + BUF_SIZE := by
  have none_case : (∀ q, a.input.offset ≤ q →
      written s.trace (a.output.offset + (q - a.input.offset)) = true →
      s.in_file.byte q = 0) →
      ∃ lo, ∀ q, a.input.offset ≤ q → s.in_file.byte q ≠ 0 →
        written s.trace (a.output.offset + (q - a.input.offset)) = true →
        lo ≤ q ∧ q < lo + BUF_SIZE := by
    intro hn
    exact ⟨0, fun q h1 h2 h3 => absurd (hn q h1 h3) h2⟩
  obtain ⟨pc, args, offset, len, rem, buf, inf, inp, outf, outp, tr⟩ := s
  cases pc with
  | start => exact none_case hh
  | loop => exact none_case hh
  | do_read => exact none_case hh
  | seek_out => exact none_case hh
  | do_write => exact none_case hh
  | reclaim =>
    simp only [Core, AtChunk] at h
    obtain ⟨-, ⟨-, -, -, hlen⟩, -⟩ := h
    simp only [HeldInv] at hh
    obtain ⟨hh, -⟩ := hh
    refine ⟨a.input.offset + offset, fun q h1 h2 h3 => ?_⟩
    rcases hh q h1 h3 with h4 | h4
    · exact absurd h4 h2
    · exact ⟨h4.1, by omega⟩
  | exited st =>
    simp only [HeldInv] at hh
    obtain ⟨lo, hh⟩ := hh
    refine ⟨lo, fun q h1 h2 h3 => ?_⟩
    rcases hh q h1 h3 with h4 | h4
    · exact absurd h4 h2
    · exact h4

/-! ## The claims -/

/-- C10 (termination).  For inputs in the range of their C types and every
environment, `main` has returned after at most `6 * size + 2` steps, whatever
`remaining_len` is; and from one loop head to any later loop head the absolute
input position `arguments.input.offset + offset` strictly increases and stays
at or below the size of the input, so `size - position` decreases. -/
theorem C10_termination (oracle : Nat → Outcome) (a : arguments) (src dst : File)
    (buf : Nat → Nat) (hr : InRange a src) :
    (∀ n, 6 * src.size + 2 ≤ n →
      ∃ st, (run oracle n (State.init a src dst buf)).status = some st) ∧
    (∀ n m, n < m → (run oracle n (State.init a src dst buf)).pc = .loop →
      (run oracle m (State.init a src dst buf)).pc = .loop →
      a.input.offset + (run oracle n (State.init a src dst buf)).offset <
        a.input.offset + (run oracle m (State.init a src dst buf)).offset ∧
      a.input.offset + (run oracle m (State.init a src dst buf)).offset ≤ src.size) := by
  refine ⟨fun n hn => main_returns _ hr oracle buf n hn, ?_⟩
  intro n m hnm hpn hpm
  obtain ⟨k, rfl⟩ : ∃ k, m = n + k + 1 := ⟨m - n - 1, by omega⟩
  have hlt := falls_along_run dst hr oracle buf measure
    (fun s hs hne => measure_step hr oracle s hs hne) n k (by rw [hpm]; intro st; simp)
  have cn := core_run dst hr oracle buf n
  have cm := core_run dst hr oracle buf (n + k + 1)
  simp only [Core, hpn, Common] at cn
  simp only [Core, hpm, Common] at cm
  obtain ⟨⟨han, hsn, -⟩, -⟩ := cn
  obtain ⟨⟨ham, hsm, -⟩, hom, -⟩ := cm
  simp only [measure, hpn, hpm, han, ham, hsn, hsm] at hlt
  omega

/-- Witness of C10: a source of two data bytes, moved whole into a new file. -/
theorem C10_termination_witness :
    InRange (argp_parse none none none) (File.ofList [some 1, some 2]) ∧
    (∃ st, (run calm 14 (State.init (argp_parse none none none)
      (File.ofList [some 1, some 2]) File.empty zero_buf)).status = some st) ∧
    0 + (run calm 1 (State.init (argp_parse none none none)
      (File.ofList [some 1, some 2]) File.empty zero_buf)).offset <
    0 + (run calm 6 (State.init (argp_parse none none none)
      (File.ofList [some 1, some 2]) File.empty zero_buf)).offset :=
  ⟨by decide,
   (C10_termination calm (argp_parse none none none) (File.ofList [some 1, some 2])
      File.empty zero_buf (by decide)).1 14 (by decide),
   ((C10_termination calm (argp_parse none none none) (File.ofList [some 1, some 2])
      File.empty zero_buf (by decide)).2 1 6 (by decide) (by decide) (by decide)).1⟩

/-- C6 (abort on first error).  For inputs in the range of their C types and
every environment: `main` returns; its return value is 0 exactly when no system
call of the run failed with anything but the end-of-data signal of `SEEK_DATA`;
a call that fails so is the last call of the run, every earlier call succeeded,
the return value is nonzero also as an exit status (below 256), and the state
never changes again, so that no further call is made; and when the punch of the
output file fails, that call is the only call of the run and the input file is
as it was. -/
theorem C6_abort_on_first_error (oracle : Nat → Outcome) (a : arguments) (src dst : File)
    (buf : Nat → Nat) (hr : InRange a src) :
    (∃ n st, (run oracle n (State.init a src dst buf)).status = some st) ∧
    (∀ n st, (run oracle n (State.init a src dst buf)).status = some st →
      (st = 0 ↔ ∀ e ∈ (run oracle n (State.init a src dst buf)).trace, e.fatal = false)) ∧
    (∀ n e, e ∈ (run oracle n (State.init a src dst buf)).trace → e.fatal = true →
      (∃ rest, (run oracle n (State.init a src dst buf)).trace = e :: rest ∧
        ∀ x ∈ rest, x.fatal = false) ∧
      (∃ st, st ≠ 0 ∧ st < 256 ∧
        (run oracle n (State.init a src dst buf)).status = some st) ∧
      ∀ m, n ≤ m →
        run oracle m (State.init a src dst buf) = run oracle n (State.init a src dst buf)) ∧
    (∀ e, fallocate dst a.output.offset (wsub src.size a.input.offset) (oracle 0) = .error e →
      ∀ n, 0 < n →
        (run oracle n (State.init a src dst buf)).status = some e.toNat ∧
        (run oracle n (State.init a src dst buf)).in_file = src ∧
        (run oracle n (State.init a src dst buf)).trace =
          [⟨.fallocate_output, a.output.offset, wsub src.size a.input.offset, .err e⟩]) := by
  refine ⟨?_, ?_, ?_, ?_⟩
  · obtain ⟨st, hst⟩ := main_returns dst hr oracle buf (6 * src.size + 2) le_rfl
    exact ⟨_, st, hst⟩
  · intro n st hst
    have ht := traceOk_run oracle a src dst buf n
    have hpc : (run oracle n (State.init a src dst buf)).pc = .exited st := by
      simp only [State.status] at hst
      split at hst
      · simp only [Option.some.injEq] at hst
        subst hst
        assumption
      · simp at hst
    simp only [TraceOk, hpc] at ht
    constructor
    · intro h0
      simpa [h0] using ht
    · intro hall
      by_contra h0
      simp only [h0, if_false] at ht
      obtain ⟨e, rest, htr, hf, -⟩ := ht
      have := hall e (by simp [htr])
      simp [hf] at this
  · intro n e hmem hf
    obtain ⟨st, rest, hpc, h0, h256, htr, hrest⟩ :=
      status_of_fatal oracle a src dst buf n hmem hf
    refine ⟨⟨rest, htr, hrest⟩, ⟨st, h0, h256, by simp [State.status, hpc]⟩, ?_⟩
    intro m hm
    exact run_stays oracle _ n m st hpc hm
  · intro e he n hn
    obtain ⟨k, rfl⟩ : ∃ k, n = k + 1 := ⟨n - 1, by omega⟩
    have h1 : (step oracle (State.init a src dst buf)).pc = .exited e.toNat ∧
        (step oracle (State.init a src dst buf)).in_file = src ∧
        (step oracle (State.init a src dst buf)).trace =
          [⟨.fallocate_output, a.output.offset, wsub src.size a.input.offset, .err e⟩] := by
      simp only [step, State.init, step_start, List.length_nil, he]
      exact ⟨trivial, trivial, trivial⟩
    have h2 : run oracle (k + 1) (State.init a src dst buf) =
        step oracle (State.init a src dst buf) :=
      run_exited oracle k _ _ h1.1
    rw [h2]
    exact ⟨by simp [State.status, h1.1], h1.2.1, h1.2.2⟩

/-- C8, counterexample.  A source of two data bytes on a file system with blocks
of 4096 bytes, moved whole into a new file: the first loop iteration completes
(the deallocation of `[0, 2)` succeeds and the loop head is reached again), the
range reads as zeros afterwards, but its block lies only partly inside the
range and stays allocated: the source has two allocated bytes before and after
the iteration, and still has them when `main` has returned 0. -/
theorem C8_storage_reclamation_counterexample :
    (run calm 5 (State.init (argp_parse none none none)
      (File.on_blocks 4096 (File.ofList [some 1, some 2])) File.empty zero_buf)).pc =
        .reclaim ∧
    (run calm 6 (State.init (argp_parse none none none)
      (File.on_blocks 4096 (File.ofList [some 1, some 2])) File.empty zero_buf)).pc =
        .loop ∧
    (run calm 6 (State.init (argp_parse none none none)
      (File.on_blocks 4096 (File.ofList [some 1, some 2])) File.empty zero_buf)).trace.head? =
        some ⟨.fallocate_input, 0, 2, .ok 0⟩ ∧
    allocated (run calm 5 (State.init (argp_parse none none none)
      (File.on_blocks 4096 (File.ofList [some 1, some 2])) File.empty zero_buf)).in_file = 2 ∧
    allocated (run calm 6 (State.init (argp_parse none none none)
      (File.on_blocks 4096 (File.ofList [some 1, some 2])) File.empty zero_buf)).in_file = 2 ∧
    (run calm 7 (State.init (argp_parse none none none)
      (File.on_blocks 4096 (File.ofList [some 1, some 2])) File.empty zero_buf)).status =
        some 0 ∧
    allocated (run calm 7 (State.init (argp_parse none none none)
      (File.on_blocks 4096 (File.ofList [some 1, some 2])) File.empty zero_buf)).in_file =
        2 := by
  decide

/-- C8, amended (storage reclamation per chunk).  For inputs in the range of
their C types, every environment and every block size: when a loop iteration
completes, the call right after the `write` that returned `len` is the
deallocation of the input range `[input.offset + offset, input.offset + offset
+ len)`, with `len` at least 1 and at most `BUF_SIZE`; afterwards every byte of
the range reads as zero, every byte of the range whose block lies wholly inside
the range is a hole, the input file has no more allocated bytes than before,
and it has fewer when the range starts at a block boundary and holds a whole
block (always so on blocks of one byte).  Over the run the number of allocated
input bytes never grows, and on blocks of one byte it strictly decreases from
one loop head to any later one.  At every point of the run the input bytes that
a `write` of the run has copied and that do not read zero in the input file lie
in one window of `BUF_SIZE` positions. -/
theorem C8_storage_reclamation_amended (oracle : Nat → Outcome) (a : arguments)
    (src dst : File) (buf : Nat → Nat) (hr : InRange a src) :
    (∀ n, (run oracle n (State.init a src dst buf)).pc = .reclaim →
      (run oracle (n + 1) (State.init a src dst buf)).pc = .loop →
      0 < (run oracle n (State.init a src dst buf)).len ∧
      (run oracle n (State.init a src dst buf)).len ≤ BUF_SIZE ∧
      (∃ cnt rest, (run oracle (n + 1) (State.init a src dst buf)).trace =
        ⟨.fallocate_input,
          a.input.offset + (run oracle n (State.init a src dst buf)).offset,
          (run oracle n (State.init a src dst buf)).len, .ok 0⟩ ::
        ⟨.write, a.output.offset + (run oracle n (State.init a src dst buf)).offset, cnt,
          .ok (run oracle n (State.init a src dst buf)).len⟩ :: rest) ∧
      (∀ q, a.input.offset + (run oracle n (State.init a src dst buf)).offset ≤ q →
        q < a.input.offset + (run oracle n (State.init a src dst buf)).offset +
          (run oracle n (State.init a src dst buf)).len →
        (run oracle (n + 1) (State.init a src dst buf)).in_file.byte q = 0 ∧
        (src.whole_block
            (a.input.offset + (run oracle n (State.init a src dst buf)).offset)
            (run oracle n (State.init a src dst buf)).len q →
          (run oracle (n + 1) (State.init a src dst buf)).in_file.cell q = none)) ∧
      allocated (run oracle (n + 1) (State.init a src dst buf)).in_file ≤
        allocated (run oracle n (State.init a src dst buf)).in_file ∧
      ((a.input.offset + (run oracle n (State.init a src dst buf)).offset) % src.block = 0 →
        src.block ≤ (run oracle n (State.init a src dst buf)).len →
        allocated (run oracle (n + 1) (State.init a src dst buf)).in_file <
          allocated (run oracle n (State.init a src dst buf)).in_file)) ∧
    (∀ n m, n ≤ m →
      allocated (run oracle m (State.init a src dst buf)).in_file ≤
        allocated (run oracle n (State.init a src dst buf)).in_file) ∧
    (src.block = 1 → ∀ n m, n < m →
      (run oracle n (State.init a src dst buf)).pc = .loop →
      (run oracle m (State.init a src dst buf)).pc = .loop →
      allocated (run oracle m (State.init a src dst buf)).in_file <
        allocated (run oracle n (State.init a src dst buf)).in_file) ∧
    (∀ n, ∃ lo, ∀ q, a.input.offset ≤ q →
      (run oracle n (State.init a src dst buf)).in_file.byte q ≠ 0 →
      written (run oracle n (State.init a src dst buf)).trace
        (a.output.offset + (q - a.input.offset)) = true →
      lo ≤ q ∧ q < lo + BUF_SIZE) := by
  refine ⟨?_, ?_, ?_, ?_⟩
  · intro n h1 h2
    rw [run_succ] at h2 ⊢
    exact reclaim_step hr oracle _ (core_run _ hr oracle buf n) (heldInv_run _ hr oracle buf n) h1 h2
  · intro n m hnm
    obtain ⟨k, rfl⟩ := Nat.exists_eq_add_of_le hnm
    exact allocated_run_le oracle _ n k
  · intro hb n m hnm hpn hpm
    obtain ⟨k, rfl⟩ : ∃ k, m = n + k + 1 := ⟨m - n - 1, by omega⟩
    have hlt := falls_along_run dst hr oracle buf storage
      (fun s hs hne => storage_step hr hb oracle s hs hne) n k (by rw [hpm]; intro st; simp)
    simp only [storage, hpn, hpm, PC.rank] at hlt
    omega
  · intro n
    exact held_of (core_run _ hr oracle buf n) (heldInv_run dst hr oracle buf n)

/-- C9 (no data loss).  For inputs in the range of their C types, every
environment (failing calls, short reads and short writes included), every block
size and every point of the run, the aborted states included: a cell of the
input file is as at the start, or has become a hole, or (on blocks of more than
one byte) has been set to zero; every input byte that was data and has become a
hole is in the output file with its value, at the output offset plus its
distance from the input offset; and so is every input byte that was data and
that the input file no longer holds, whether deallocated or set to zero. -/
theorem C9_no_data_loss (oracle : Nat → Outcome) (a : arguments) (src dst : File)
    (buf : Nat → Nat) (hr : InRange a src) (n : Nat) :
    (∀ q, (run oracle n (State.init a src dst buf)).in_file.cell q = src.cell q ∨
      (run oracle n (State.init a src dst buf)).in_file.cell q = none ∨
      ((run oracle n (State.init a src dst buf)).in_file.cell q = some 0 ∧ src.block ≠ 1)) ∧
    (∀ q b, src.cell q = some b →
      (run oracle n (State.init a src dst buf)).in_file.cell q = none →
      a.input.offset ≤ q ∧
      (run oracle n (State.init a src dst buf)).out_file.cell
        (a.output.offset + (q - a.input.offset)) = some b) ∧
    (∀ q b, src.cell q = some b →
      (run oracle n (State.init a src dst buf)).in_file.cell q ≠ some b →
      a.input.offset ≤ q ∧
      (run oracle n (State.init a src dst buf)).out_file.cell
        (a.output.offset + (q - a.input.offset)) = some b) :=
  ⟨(core_mono (core_run _ hr oracle buf n)).2,
   fun q b h1 h2 =>
     kept_of (core_run _ hr oracle buf n) (outInv_run _ hr oracle buf n) q b h1
       (by rw [h2]; exact fun h => by cases h),
   kept_of (core_run _ hr oracle buf n) (outInv_run _ hr oracle buf n)⟩

/-- Witness of C6: the punch of the output file fails with `EBADF`; `main`
returns 9 after that single call and the input file is untouched. -/
theorem C6_abort_on_first_error_witness :
    InRange (argp_parse none none none) (File.ofList [some 1, some 2]) ∧
    (run bad_descriptor 3 (State.init (argp_parse none none none)
      (File.ofList [some 1, some 2]) File.empty zero_buf)).status = some 9 ∧
    (run bad_descriptor 3 (State.init (argp_parse none none none)
      (File.ofList [some 1, some 2]) File.empty zero_buf)).in_file =
        File.ofList [some 1, some 2] ∧
    (run bad_descriptor 3 (State.init (argp_parse none none none)
      (File.ofList [some 1, some 2]) File.empty zero_buf)).trace =
        [⟨.fallocate_output, 0, 2, .err .EBADF⟩] :=
  ⟨by decide,
   (C6_abort_on_first_error bad_descriptor (argp_parse none none none)
      (File.ofList [some 1, some 2]) File.empty zero_buf (by decide)).2.2.2
      Errno.EBADF rfl 3 (by decide)⟩

/-- Witness of C8 (amended): on blocks of one byte the first chunk of a source
of two data bytes starts at a block boundary and holds a whole block, and the
source has fewer allocated bytes after the iteration. -/
theorem C8_storage_reclamation_amended_witness :
    InRange (argp_parse none none none) (File.ofList [some 1, some 2]) ∧
    allocated (run calm 6 (State.init (argp_parse none none none)
      (File.ofList [some 1, some 2]) File.empty zero_buf)).in_file <
    allocated (run calm 5 (State.init (argp_parse none none none)
      (File.ofList [some 1, some 2]) File.empty zero_buf)).in_file :=
  ⟨by decide,
   ((C8_storage_reclamation_amended calm (argp_parse none none none)
      (File.ofList [some 1, some 2]) File.empty zero_buf (by decide)).1 5
      (by decide) (by decide)).2.2.2.2.2 (by decide) (by decide)⟩

/-- Witness of C9: with one-byte transfers, the first byte of the source is a
hole after the first iteration and the output file holds it. -/
theorem C9_no_data_loss_witness :
    InRange (argp_parse none none none) (File.ofList [some 1, some 2]) ∧
    0 ≤ 0 ∧
    (run one_byte 6 (State.init (argp_parse none none none)
      (File.ofList [some 1, some 2]) File.empty zero_buf)).out_file.cell (0 + (0 - 0)) =
        some 1 :=
  ⟨by decide,
   (C9_no_data_loss one_byte (argp_parse none none none)
      (File.ofList [some 1, some 2]) File.empty zero_buf (by decide) 6).2.1 0 1
      (by decide) (by decide)⟩

/-- C1, counterexample.  A source of two bytes that is one hole, an output file
that holds the byte 7, a request for the whole source (`length = 2`): `main`
returns 0, the output file reads 0 at position 0, not its former content 7, and
ends at position 1, so that a read of two bytes returns one. -/
theorem C1_completeness_counterexample :
    (run calm 3 (State.init (argp_parse none none (some 2)) (File.ofList [none, none])
      (File.ofList [some 7]) zero_buf)).status = some 0 ∧
    (File.ofList [none, none]).cell 0 = none ∧
    (File.ofList [some 7]).peek 0 = some 7 ∧
    (run calm 3 (State.init (argp_parse none none (some 2)) (File.ofList [none, none])
      (File.ofList [some 7]) zero_buf)).out_file.peek 0 = some 0 ∧
    (run calm 3 (State.init (argp_parse none none (some 2)) (File.ofList [none, none])
      (File.ofList [some 7]) zero_buf)).out_file.peek 1 = none := by
  decide

/-- C1, amended (completeness).  For inputs in the range of their C types and
every environment, after a run that returned 0: for every position `rel` below
the requested length and inside the source, the output file reads at
`output.offset + rel` the byte the source read at `input.offset + rel` at the
start, a hole of the source reading as zero whatever the output file held there
before; or the output file ends at or before that position and the source was a
hole there. -/
theorem C1_completeness_amended (oracle : Nat → Outcome) (a : arguments) (src dst : File)
    (buf : Nat → Nat) (hr : InRange a src) (n : Nat)
    (h0 : (run oracle n (State.init a src dst buf)).status = some 0)
    (rel : Nat) (h1 : rel < a.len) (h2 : a.input.offset + rel < src.size) :
    (run oracle n (State.init a src dst buf)).out_file.peek (a.output.offset + rel) =
        some (src.byte (a.input.offset + rel)) ∨
    ((run oracle n (State.init a src dst buf)).out_file.peek (a.output.offset + rel) = none ∧
      src.cell (a.input.offset + rel) = none) := by
  have ho := outInv_run dst hr oracle buf n
  have hpc : (run oracle n (State.init a src dst buf)).pc = .exited 0 := by
    simp only [State.status] at h0
    split at h0
    · simp only [Option.some.injEq] at h0
      subst h0
      assumption
    · simp at h0
  simp only [OutInv, hpc] at ho
  obtain ⟨-, -, hfin⟩ := ho
  have hav := available_le (p := a.input.offset + rel) hr (by omega) (by omega)
  have heff : rel < effective_len a src := by
    unfold effective_len
    split <;> omega
  have h3 := hfin trivial (a.input.offset + rel) (by omega) h2 (by simpa using heff)
  simp only [Nat.add_sub_cancel_left] at h3
  obtain ⟨h4, h5⟩ := h3
  simp only [File.peek]
  by_cases hx : a.output.offset + rel <
      (run oracle n (State.init a src dst buf)).out_file.size
  · left
    simp only [hx, if_true, h4]
  · right
    simp only [hx, if_false, true_and]
    by_contra hc
    apply hx
    apply h5
    cases hcell : src.cell (a.input.offset + rel) with
    | none => exact absurd hcell hc
    | some v => rfl

/-- Witness of C1 (amended): data, a hole and data again, moved from input
offset 1 to output offset 2 of a file that held other data. -/
theorem C1_completeness_amended_witness :
    InRange (argp_parse (some 1) (some 2) none)
      (File.ofList [some 1, some 2, none, some 3]) ∧
    ((run calm 8 (State.init (argp_parse (some 1) (some 2) none)
      (File.ofList [some 1, some 2, none, some 3])
      (File.ofList [some 9, some 9, some 9, some 9, some 9, some 9]) zero_buf)).out_file.peek
        (2 + 1) = some ((File.ofList [some 1, some 2, none, some 3]).byte (1 + 1)) ∨
    ((run calm 8 (State.init (argp_parse (some 1) (some 2) none)
      (File.ofList [some 1, some 2, none, some 3])
      (File.ofList [some 9, some 9, some 9, some 9, some 9, some 9]) zero_buf)).out_file.peek
        (2 + 1) = none ∧
      (File.ofList [some 1, some 2, none, some 3]).cell (1 + 1) = none)) :=
  ⟨by decide,
   C1_completeness_amended calm (argp_parse (some 1) (some 2) none)
     (File.ofList [some 1, some 2, none, some 3])
     (File.ofList [some 9, some 9, some 9, some 9, some 9, some 9]) zero_buf
     (by decide) 8 (by decide) 1 (by decide) (by decide)⟩

/-- C2, the code at the failing input.  A source of four data bytes, an output
file of four data bytes, `--length 2`: the effective length is 2, yet the punch
of the output file is called with length 4 and deallocates the output bytes at
positions 2 and 3, outside `[0, 2)`. -/
theorem C2_prereservation_exceeds_length :
    (step calm (State.init (argp_parse none none (some 2))
      (File.ofList [some 1, some 2, some 3, some 4])
      (File.ofList [some 9, some 9, some 9, some 9]) zero_buf)).arguments.len = 2 ∧
    (step calm (State.init (argp_parse none none (some 2))
      (File.ofList [some 1, some 2, some 3, some 4])
      (File.ofList [some 9, some 9, some 9, some 9]) zero_buf)).trace =
        [⟨.fallocate_output, 0, 4, .ok 0⟩] ∧
    (File.ofList [some 9, some 9, some 9, some 9]).cell 3 = some 9 ∧
    (run calm 8 (State.init (argp_parse none none (some 2))
      (File.ofList [some 1, some 2, some 3, some 4])
      (File.ofList [some 9, some 9, some 9, some 9]) zero_buf)).status = some 0 ∧
    (run calm 8 (State.init (argp_parse none none (some 2))
      (File.ofList [some 1, some 2, some 3, some 4])
      (File.ofList [some 9, some 9, some 9, some 9]) zero_buf)).out_file.cell 2 = none ∧
    (run calm 8 (State.init (argp_parse none none (some 2))
      (File.ofList [some 1, some 2, some 3, some 4])
      (File.ofList [some 9, some 9, some 9, some 9]) zero_buf)).out_file.cell 3 = none := by
  decide

/-- C3, the code at the failing input.  A source whose first two bytes are a
hole and whose last two bytes are data, `--length 1`: after `SEEK_DATA` the
logical offset is 2, above the length 1, `remaining_len` has wrapped and the
chunk size is `BUF_SIZE`; the run reads, writes and deallocates the source
bytes at positions 2 and 3, outside `[0, 1)`, and returns 0. -/
theorem C3_chunk_outside_requested_range :
    (run calm 2 (State.init (argp_parse none none (some 1))
      (File.ofList [none, none, some 7, some 8]) File.empty zero_buf)).pc = .do_read ∧
    (run calm 2 (State.init (argp_parse none none (some 1))
      (File.ofList [none, none, some 7, some 8]) File.empty zero_buf)).arguments.len = 1 ∧
    (run calm 2 (State.init (argp_parse none none (some 1))
      (File.ofList [none, none, some 7, some 8]) File.empty zero_buf)).offset = 2 ∧
    (run calm 2 (State.init (argp_parse none none (some 1))
      (File.ofList [none, none, some 7, some 8]) File.empty zero_buf)).remaining_len =
        18446744073709551615 ∧
    (run calm 2 (State.init (argp_parse none none (some 1))
      (File.ofList [none, none, some 7, some 8]) File.empty zero_buf)).len = BUF_SIZE ∧
    (run calm 8 (State.init (argp_parse none none (some 1))
      (File.ofList [none, none, some 7, some 8]) File.empty zero_buf)).status = some 0 ∧
    (run calm 8 (State.init (argp_parse none none (some 1))
      (File.ofList [none, none, some 7, some 8]) File.empty zero_buf)).in_file.cell 2 = none ∧
    (run calm 8 (State.init (argp_parse none none (some 1))
      (File.ofList [none, none, some 7, some 8]) File.empty zero_buf)).in_file.cell 3 = none ∧
    (run calm 8 (State.init (argp_parse none none (some 1))
      (File.ofList [none, none, some 7, some 8]) File.empty zero_buf)).out_file.cell 3 =
        some 8 := by
  decide

/-- C4, the code at the failing input.  `--length 0` with a source of four data
bytes and an output file of four data bytes: `main` returns 0 after one call,
the punch of the output file with length 4, and the output file has lost its
four bytes.  With an empty source the same request returns 22 (`EINVAL`),
because the punch is called with length 0. -/
theorem C4_zero_length_deallocates_output :
    (run calm 3 (State.init (argp_parse none none (some 0))
      (File.ofList [some 1, some 2, some 3, some 4])
      (File.ofList [some 9, some 9, some 9, some 9]) zero_buf)).status = some 0 ∧
    (run calm 3 (State.init (argp_parse none none (some 0))
      (File.ofList [some 1, some 2, some 3, some 4])
      (File.ofList [some 9, some 9, some 9, some 9]) zero_buf)).trace =
        [⟨.fallocate_output, 0, 4, .ok 0⟩] ∧
    (File.ofList [some 9, some 9, some 9, some 9]).cell 0 = some 9 ∧
    (run calm 3 (State.init (argp_parse none none (some 0))
      (File.ofList [some 1, some 2, some 3, some 4])
      (File.ofList [some 9, some 9, some 9, some 9]) zero_buf)).out_file.cell 0 = none ∧
    (run calm 3 (State.init (argp_parse none none (some 0)) (File.ofList [])
      (File.ofList [some 9, some 9, some 9, some 9]) zero_buf)).status = some 22 := by
  decide

/-- C5, the code at the failing input.  A source of four bytes and
`--input-offset 5`, no `--length`: the subtraction of line 168 wraps and the
effective length is `2 ^ 64 - 1`, not 0; the punch of the output file is then
refused and `main` returns 22 (`EINVAL`). -/
theorem C5_effective_length_wraps :
    (step calm (State.init (argp_parse (some 5) none none)
      (File.ofList [some 1, some 2, some 3, some 4]) File.empty zero_buf)).arguments.len =
        18446744073709551615 ∧
    (step calm (State.init (argp_parse (some 5) none none)
      (File.ofList [some 1, some 2, some 3, some 4]) File.empty zero_buf)).status =
        some 22 := by
  decide

/-- Lines 168-169 inside the source: when the input offset is at most the size
of the source, the effective length is the smaller of the requested length and
of what the source holds from the offset on. -/
theorem effective_len_within (oracle : Nat → Outcome) (a : arguments) (src dst : File)
    (buf : Nat → Nat) (hr : InRange a src) (h : a.input.offset ≤ src.size) :
    (step oracle (State.init a src dst buf)).arguments.len =
      min a.len (src.size - a.input.offset) := by
  have hav := available_le (p := a.input.offset) hr le_rfl h
  simp only [available] at hav
  simp only [step, State.init, step_start, List.length_nil]
  split <;> (simp only [hav]; split <;> omega)

/-- Line 171 in general: the first call of every run is the punch of the output
file with the length of line 168, whatever the requested length. -/
theorem first_call_length (oracle : Nat → Outcome) (a : arguments) (src dst : File)
    (buf : Nat → Nat) :
    ∃ r, (step oracle (State.init a src dst buf)).trace =
      [⟨.fallocate_output, a.output.offset, wsub src.size a.input.offset, r⟩] := by
  simp only [step, State.init, step_start, List.length_nil]
  split
  · exact ⟨_, rfl⟩
  · exact ⟨_, rfl⟩

end MvData
